import Mathlib

/-!
A shallow embedding of the `cas` repository's two cores: the numeric
expression parser (`src/parser/ExpressionParser.cpp`) and the symbolic
engine (`src/cas/SymbolicEngine.cpp`), with theorems about parsing,
evaluation, differentiation, integration, simplification and solving.

Modelling conventions:
* C++ `double` values are modelled as `Rat`.  The transcendental library
  functions (`std::sin`, `std::log`, ...) have no exact rational
  counterpart; they are threaded through every operation as an abstract
  structure `Prims` of total functions `Rat → Rat`, so theorems quantified
  over `Prims` hold for every interpretation of the library functions.
  `std::pow` is likewise a `Prims` field; the concrete instance `ratPrims`
  interprets it exactly on integer exponents (the only exponents concrete
  test inputs exercise).
* C++ exceptions are modelled with `Except String`; the strings follow the
  `what()` messages of the thrown `std::runtime_error`s.  Parse errors drop
  the source positions carried by the C++ messages, keeping only the text.
* `std::map<std::string, double>` bindings are association lists.
-/

namespace Cas

attribute [local semireducible] Rat.add Rat.sub Rat.mul Rat.inv Rat.ofScientific

/-- Abstract interpretations of the C++ math-library primitives used by
`evaluate` (`std::sin`, `std::cos`, `std::tan`, `std::log10`, `std::log`,
`std::sqrt`, `std::pow`).  Everything else about evaluation (domain checks,
division by zero, variable lookup) is modelled exactly. -/
structure Prims where
  sinF : Rat → Rat
  cosF : Rat → Rat
  tanF : Rat → Rat
  log10F : Rat → Rat
  lnF : Rat → Rat
  sqrtF : Rat → Rat
  powF : Rat → Rat → Rat

/-- Exact value of `std::pow` on integer exponents; 0 elsewhere (no concrete
input below ever applies it to a non-integer exponent). -/
def ratPow (a b : Rat) : Rat :=
  if b.den = 1 then
    if 0 ≤ b.num then a ^ b.num.toNat else (a ^ (-b.num).toNat)⁻¹
  else 0

/-- A concrete `Prims` for running the engine on test inputs: `pow` is exact
on integer exponents, the transcendental functions are arbitrarily 0 (no
concrete test input below depends on their values). -/
def ratPrims : Prims :=
  ⟨fun _ => 0, fun _ => 0, fun _ => 0, fun _ => 0, fun _ => 0, fun _ => 0, ratPow⟩

/-- `BinaryOpNode::OpType` and `SymbolicBinaryOp::OpType` (the two C++ enums
have the same five constructors). -/
inductive BinOp
  | add | sub | mul | div | pow
deriving DecidableEq, Repr

/-- `UnaryOpNode::OpType` and `SymbolicUnaryOp::OpType`. -/
inductive UnOp
  | pos | neg | sin | cos | tan | log | ln | sqrt | abs
deriving DecidableEq, Repr

/-- The numeric-expression AST (`ASTNode` and its subclasses `NumberNode`,
`VariableNode`, `BinaryOpNode`, `UnaryOpNode`, `FunctionNode`). -/
inductive ASTN
  | num (value : Rat)
  | var (name : String)
  | bin (op : BinOp) (left right : ASTN)
  | un (op : UnOp) (operand : ASTN)
  | fn (functionName : String) (arguments : List ASTN)

/-- The symbolic-expression tree (`SymbolicExpression` and its subclasses
`SymbolicNumber`, `SymbolicVariable`, `SymbolicBinaryOp`, `SymbolicUnaryOp`,
`SymbolicFunction`). -/
inductive SymExpr
  | num (value : Rat)
  | var (name : String)
  | bin (op : BinOp) (left right : SymExpr)
  | un (op : UnOp) (operand : SymExpr)
  | fn (functionName : String) (arguments : List SymExpr)

/-- Variable bindings (`std::map<std::string, double>`). -/
abbrev Env := List (String × Rat)

mutual

/-- `SymbolicExpression::isConstant` (true iff no `SymbolicVariable` occurs). -/
def SymExpr.isConstant : SymExpr → Bool
  | .num _ => true
  | .var _ => false
  | .bin _ l r => l.isConstant && r.isConstant
  | .un _ e => e.isConstant
  | .fn _ args => SymExpr.allConstant args

/-- `SymbolicFunction::isConstant`'s loop over the argument list. -/
def SymExpr.allConstant : List SymExpr → Bool
  | [] => true
  | a :: as => a.isConstant && SymExpr.allConstant as

end

/-- `SymbolicExpression::isZero`: literal checks only; note that
`SymbolicUnaryOp::isZero` delegates to its operand unconditionally. -/
def SymExpr.isZero : SymExpr → Bool
  | .num v => v == 0
  | .un _ e => e.isZero
  | _ => false

/-- `SymbolicExpression::isOne`: literal check on `SymbolicNumber` only. -/
def SymExpr.isOne : SymExpr → Bool
  | .num v => v == 1
  | _ => false

/-- The single-argument math functions dispatched by name in
`FunctionNode::evaluate` and `SymbolicFunction::evaluate`. -/
def applyFn (P : Prims) (name : String) (arg : Rat) : Except String Rat :=
  if name = "sin" then pure (P.sinF arg)
  else if name = "cos" then pure (P.cosF arg)
  else if name = "tan" then pure (P.tanF arg)
  else if name = "log" then
    if arg ≤ 0 then throw "Log of non-positive number" else pure (P.log10F arg)
  else if name = "ln" then
    if arg ≤ 0 then throw "Natural log of non-positive number" else pure (P.lnF arg)
  else if name = "sqrt" then
    if arg < 0 then throw "Square root of negative number" else pure (P.sqrtF arg)
  else if name = "abs" then pure (if arg < 0 then -arg else arg)
  else throw ("Unknown function: " ++ name)

/-- `SymbolicExpression::evaluate` over all node kinds. -/
def SymExpr.evaluate (P : Prims) : SymExpr → Env → Except String Rat
  | .num v, _ => pure v
  | .var n, env =>
    match env.lookup n with
    | some v => pure v
    | none => throw ("Undefined variable: " ++ n)
  | .bin op l r, env => do
    let a ← l.evaluate P env
    let b ← r.evaluate P env
    match op with
    | .add => pure (a + b)
    | .sub => pure (a - b)
    | .mul => pure (a * b)
    | .div => if b = 0 then throw "Division by zero" else pure (a / b)
    | .pow => pure (P.powF a b)
  | .un op e, env => do
    let v ← e.evaluate P env
    match op with
    | .pos => pure v
    | .neg => pure (-v)
    | .sin => pure (P.sinF v)
    | .cos => pure (P.cosF v)
    | .tan => pure (P.tanF v)
    | .log => if v ≤ 0 then throw "Log of non-positive number" else pure (P.log10F v)
    | .ln => if v ≤ 0 then throw "Natural log of non-positive number" else pure (P.lnF v)
    | .sqrt => if v < 0 then throw "Square root of negative number" else pure (P.sqrtF v)
    | .abs => pure (if v < 0 then -v else v)
  | .fn name args, env =>
    match args with
    | [arg] => do
      let a ← arg.evaluate P env
      applyFn P name a
    | _ => throw ("Function " ++ name ++ " expects 1 argument")

/-- `ASTNode::evaluate` over all node kinds (`BinaryOpNode::evaluate`,
`UnaryOpNode::evaluate`, `NumberNode`, `VariableNode`,
`FunctionNode::evaluate`). -/
def ASTN.evaluate (P : Prims) : ASTN → Env → Except String Rat
  | .num v, _ => pure v
  | .var n, env =>
    match env.lookup n with
    | some v => pure v
    | none => throw ("Undefined variable: " ++ n)
  | .bin op l r, env => do
    let a ← l.evaluate P env
    let b ← r.evaluate P env
    match op with
    | .add => pure (a + b)
    | .sub => pure (a - b)
    | .mul => pure (a * b)
    | .div => if b = 0 then throw "Division by zero" else pure (a / b)
    | .pow => pure (P.powF a b)
  | .un op e, env => do
    let v ← e.evaluate P env
    match op with
    | .pos => pure v
    | .neg => pure (-v)
    | .sin => pure (P.sinF v)
    | .cos => pure (P.cosF v)
    | .tan => pure (P.tanF v)
    | .log => if v ≤ 0 then throw "Log of non-positive number" else pure (P.log10F v)
    | .ln => if v ≤ 0 then throw "Natural log of non-positive number" else pure (P.lnF v)
    | .sqrt => if v < 0 then throw "Square root of negative number" else pure (P.sqrtF v)
    | .abs => pure (if v < 0 then -v else v)
  | .fn name args, env =>
    match args with
    | [arg] => do
      let a ← arg.evaluate P env
      applyFn P name a
    | _ => throw ("Function " ++ name ++ " expects 1 argument")

/-! ## Number formatting

`NumberNode::toString` and `SymbolicNumber::toString` both print the stored
`double` through `std::ostringstream` with its defaults: the `%g` style with
6 significant digits.  `fmtRat` reproduces that text for the embedded `Rat`
values, rounding the decimal significand ties-to-even. -/

/-- Decimal digit count of `n` (the length of `Nat.toDigits 10 n`). -/
def digLen10 (n : Nat) : Nat := (Nat.toDigits 10 n).length

/-- Round `n / d` (for `d > 0`) to the nearest integer, ties to even. -/
def intRoundHE (n : Int) (d : Nat) : Int :=
  let q := n.ediv d
  let r := n - q * d
  if 2 * r < (d : Int) then q
  else if (d : Int) < 2 * r then q + 1
  else if q % 2 = 0 then q else q + 1

/-- Remove trailing `'0'` characters. -/
def stripZeros (l : List Char) : List Char :=
  (l.reverse.dropWhile (fun c => c = '0')).reverse

/-- Exponent suffix of the scientific form: sign then at least two digits. -/
def expoChars (e : Int) : List Char :=
  let a := Nat.toDigits 10 e.natAbs
  let a := if a.length < 2 then '0' :: a else a
  (if e < 0 then '-' else '+') :: a

/-- `%g`-style text of a positive rational with 6 significant digits. -/
def fmtPos (q : Rat) : List Char :=
  let k := digLen10 q.den
  let m := ((q.num * (10 : Int) ^ k).ediv q.den).toNat
  let e : Int := (digLen10 m : Int) - 1 - k
  let d0 := (if 0 ≤ 5 - e then intRoundHE (q.num * (10 : Int) ^ (5 - e).toNat) q.den
             else intRoundHE q.num (q.den * 10 ^ (e - 5).toNat)).toNat
  let e := if d0 = 1000000 then e + 1 else e
  let d := if d0 = 1000000 then 100000 else d0
  let ds := Nat.toDigits 10 d
  if e ≥ 6 ∨ e < -4 then
    match ds with
    | c :: rest =>
      let frac := stripZeros rest
      c :: ((if frac = [] then [] else '.' :: frac) ++ ('e' :: expoChars e))
    | [] => []
  else if 0 ≤ e then
    let ip := ds.take (e.toNat + 1)
    let frac := stripZeros (ds.drop (e.toNat + 1))
    ip ++ (if frac = [] then [] else '.' :: frac)
  else
    '0' :: '.' :: (List.replicate ((-e).toNat - 1) '0' ++ stripZeros ds)

/-- The text `std::ostringstream << value` produces for a finite `double`
under the default 6-significant-digit precision. -/
def fmtRat (q : Rat) : String :=
  if q = 0 then "0"
  else if q < 0 then ⟨'-' :: fmtPos (-q)⟩
  else ⟨fmtPos q⟩

/-- `(long long)` printing used by `SymbolicBinaryOp::toString` when a folded
coefficient is integral (`std::floor(c) == c`); otherwise the plain `double`
formatting. -/
def fmtCoeff (q : Rat) : String :=
  if q.den = 1 then Int.repr q.num else fmtRat q

/-! ## Stringification -/

/-- The operator symbol table of `BinaryOpNode::toString`. -/
def BinOp.symbol : BinOp → String
  | .add => "+"
  | .sub => "-"
  | .mul => "*"
  | .div => "/"
  | .pow => "^"

mutual

/-- `ASTNode::toString`: fully parenthesized infix for binary nodes, sign
juxtaposition for unary plus/minus, name-call style for the named unary
operations and `FunctionNode`. -/
def ASTN.toText : ASTN → String
  | .num v => fmtRat v
  | .var n => n
  | .bin op l r => "(" ++ l.toText ++ " " ++ op.symbol ++ " " ++ r.toText ++ ")"
  | .un op e =>
    match op with
    | .pos => "+" ++ e.toText
    | .neg => "-" ++ e.toText
    | .sin => "sin(" ++ e.toText ++ ")"
    | .cos => "cos(" ++ e.toText ++ ")"
    | .tan => "tan(" ++ e.toText ++ ")"
    | .log => "log(" ++ e.toText ++ ")"
    | .ln => "ln(" ++ e.toText ++ ")"
    | .sqrt => "sqrt(" ++ e.toText ++ ")"
    | .abs => "abs(" ++ e.toText ++ ")"
  | .fn name args => name ++ "(" ++ ASTN.argsText args ++ ")"

/-- `FunctionNode::toString`'s comma-separated argument list. -/
def ASTN.argsText : List ASTN → String
  | [] => ""
  | [a] => a.toText
  | a :: as => a.toText ++ ", " ++ ASTN.argsText as

end

/-- The parenthesization test of `SymbolicBinaryOp::toString`'s coefficient
display: parenthesize anything that is not a variable, function call or
unary node. -/
def needParens : SymExpr → Bool
  | .var _ => false
  | .fn _ _ => false
  | .un _ _ => false
  | _ => true

/-- Third stage of `SymbolicBinaryOp::toString` for `MULTIPLY`:
non-constant `*` constant coefficient display, else the explicit fallback. -/
def mulDisplay3 (l r : SymExpr) (lt rt : String) : String :=
  if !l.isConstant && r.isConstant then
    match r with
    | .num c =>
      if c = 1 then lt
      else if c = -1 then "-" ++ lt
      else fmtCoeff c ++ (if needParens l then "(" ++ lt ++ ")" else lt)
    | _ => "(" ++ lt ++ " * " ++ rt ++ ")"
  else "(" ++ lt ++ " * " ++ rt ++ ")"

/-- Second stage: constant `*` non-constant coefficient display. -/
def mulDisplay2 (l r : SymExpr) (lt rt : String) : String :=
  if l.isConstant && !r.isConstant then
    match l with
    | .num c =>
      if c = 1 then rt
      else if c = -1 then "-" ++ rt
      else fmtCoeff c ++ (if needParens r then "(" ++ rt ++ ")" else rt)
    | _ => mulDisplay3 l r lt rt
  else mulDisplay3 l r lt rt

/-- First stage: two literal-number operands fold to their product at print
time. -/
def mulDisplay (l r : SymExpr) (lt rt : String) : String :=
  if l.isConstant && r.isConstant then
    match l, r with
    | .num a, .num b => fmtCoeff (a * b)
    | _, _ => mulDisplay2 l r lt rt
  else mulDisplay2 l r lt rt

mutual

/-- `SymbolicExpression::toString`, including `SymbolicBinaryOp::toString`'s
special multiplication display. -/
def SymExpr.toText : SymExpr → String
  | .num v => fmtRat v
  | .var n => n
  | .bin op l r =>
    if op = .mul then mulDisplay l r l.toText r.toText
    else "(" ++ l.toText ++ " " ++ op.symbol ++ " " ++ r.toText ++ ")"
  | .un op e =>
    match op with
    | .pos => "+" ++ e.toText
    | .neg => "-" ++ e.toText
    | .sin => "sin(" ++ e.toText ++ ")"
    | .cos => "cos(" ++ e.toText ++ ")"
    | .tan => "tan(" ++ e.toText ++ ")"
    | .log => "log(" ++ e.toText ++ ")"
    | .ln => "ln(" ++ e.toText ++ ")"
    | .sqrt => "sqrt(" ++ e.toText ++ ")"
    | .abs => "abs(" ++ e.toText ++ ")"
  | .fn name args => name ++ "(" ++ SymExpr.sargsText args ++ ")"

/-- `SymbolicFunction::toString`'s comma-separated argument list. -/
def SymExpr.sargsText : List SymExpr → String
  | [] => ""
  | [a] => a.toText
  | a :: as => a.toText ++ ", " ++ SymExpr.sargsText as

end

/-! ## Simplification -/

/-- The per-operator case analysis of `SymbolicBinaryOp::simplify`, applied
after both children were simplified to `sl` and `sr`.  Constant folding
evaluates the simplified children with an empty binding map; the `DIVIDE`
fold is the plain C++ `/` on `double`s, not the checked division. -/
def simpBin (P : Prims) (op : BinOp) (sl sr : SymExpr) : Except String SymExpr :=
  match op with
  | .add =>
    if sl.isZero then pure sr
    else if sr.isZero then pure sl
    else if sl.isConstant && sr.isConstant then do
      let a ← sl.evaluate P []
      let b ← sr.evaluate P []
      pure (.num (a + b))
    else pure (.bin .add sl sr)
  | .sub =>
    if sr.isZero then pure sl
    else if sl.isZero then pure (.un .neg sr)
    else if sl.isConstant && sr.isConstant then do
      let a ← sl.evaluate P []
      let b ← sr.evaluate P []
      pure (.num (a - b))
    else pure (.bin .sub sl sr)
  | .mul =>
    if sl.isZero || sr.isZero then pure (.num 0)
    else if sl.isOne then pure sr
    else if sr.isOne then pure sl
    else if sl.isConstant && sr.isConstant then do
      let a ← sl.evaluate P []
      let b ← sr.evaluate P []
      pure (.num (a * b))
    else pure (.bin .mul sl sr)
  | .div =>
    if sr.isZero then throw "Division by zero"
    else if sl.isZero then pure (.num 0)
    else if sr.isOne then pure sl
    else if sl.isConstant && sr.isConstant then do
      let a ← sl.evaluate P []
      let b ← sr.evaluate P []
      pure (.num (a / b))
    else pure (.bin .div sl sr)
  | .pow =>
    if sr.isZero then pure (.num 1)
    else if sr.isOne then pure sl
    else if sl.isZero then pure (.num 0)
    else if sl.isOne then pure (.num 1)
    else if sl.isConstant && sr.isConstant then do
      let a ← sl.evaluate P []
      let b ← sr.evaluate P []
      pure (.num (P.powF a b))
    else pure (.bin .pow sl sr)

/-- The case analysis of `SymbolicUnaryOp::simplify`: `orig` is the original
operand (constant folding calls `evaluate()` on the ORIGINAL node with an
empty binding map), `so` the simplified operand. -/
def simpUn (P : Prims) (op : UnOp) (orig so : SymExpr) : Except String SymExpr :=
  match op with
  | .pos => pure so
  | .neg =>
    if so.isZero then pure (.num 0)
    else
      match so with
      | .un .neg inner => pure inner
      | _ =>
        if so.isConstant then do
          let v ← SymExpr.evaluate P (.un .neg orig) []
          pure (.num v)
        else pure (.un .neg so)
  | opp =>
    if so.isConstant then do
      let v ← SymExpr.evaluate P (.un opp orig) []
      pure (.num v)
    else pure (.un opp so)

mutual

/-- `SymbolicExpression::simplify`: simplify children bottom-up, then apply
the per-operator cases; `SymbolicFunction::simplify` folds when every
simplified argument is constant, evaluating the ORIGINAL node. -/
def SymExpr.simplify (P : Prims) : SymExpr → Except String SymExpr
  | .num v => pure (.num v)
  | .var n => pure (.var n)
  | .bin op l r => do
    let sl ← l.simplify P
    let sr ← r.simplify P
    simpBin P op sl sr
  | .un op e => do
    let so ← e.simplify P
    simpUn P op e so
  | .fn name args => do
    let sargs ← SymExpr.simplifyArgs P args
    if SymExpr.allConstant sargs then do
      let v ← SymExpr.evaluate P (.fn name args) []
      pure (.num v)
    else pure (.fn name sargs)

/-- `SymbolicFunction::simplify`'s loop over the argument list. -/
def SymExpr.simplifyArgs (P : Prims) : List SymExpr → Except String (List SymExpr)
  | [] => pure []
  | a :: as => do
    let sa ← a.simplify P
    let sas ← SymExpr.simplifyArgs P as
    pure (sa :: sas)

end

/-! ## Differentiation, integration, solving, conversion -/

/-- `SymbolicExpression::differentiate` with respect to `x`.  The `POWER`
case evaluates the exponent (original, with an empty binding map) before
differentiating the base, exactly as the C++ statement order does. -/
def SymExpr.differentiate (P : Prims) (x : String) : SymExpr → Except String SymExpr
  | .num _ => pure (.num 0)
  | .var n => if n = x then pure (.num 1) else pure (.num 0)
  | .bin op l r =>
    match op with
    | .add => do
      let dl ← l.differentiate P x
      let dr ← r.differentiate P x
      pure (.bin .add dl dr)
    | .sub => do
      let dl ← l.differentiate P x
      let dr ← r.differentiate P x
      pure (.bin .sub dl dr)
    | .mul => do
      let dl ← l.differentiate P x
      let dr ← r.differentiate P x
      pure (.bin .add (.bin .mul l dr) (.bin .mul r dl))
    | .div => do
      let dl ← l.differentiate P x
      let dr ← r.differentiate P x
      pure (.bin .div (.bin .sub (.bin .mul r dl) (.bin .mul l dr))
        (.bin .pow r (.num 2)))
    | .pow =>
      if r.isConstant then do
        let expVal ← r.evaluate P []
        let dl ← l.differentiate P x
        pure (.bin .mul (.bin .pow l (.num (expVal - 1)))
          (.bin .mul (.num expVal) dl))
      else throw "Differentiation of variable exponents not implemented"
  | .un op e => do
    let de ← e.differentiate P x
    match op with
    | .pos => pure de
    | .neg => pure (.un .neg de)
    | .sin => pure (.bin .mul (.un .cos e) de)
    | .cos => pure (.bin .mul (.un .neg (.un .sin e)) de)
    | .tan => pure (.bin .mul (.bin .div (.num 1) (.bin .pow (.un .cos e) (.num 2))) de)
    | .ln => pure (.bin .mul (.bin .div (.num 1) e) de)
    | .sqrt => pure (.bin .mul (.bin .div (.num 1) (.bin .mul (.num 2) (.un .sqrt e))) de)
    | _ => throw "Differentiation not implemented for this unary operation"
  | .fn name args =>
    match args with
    | [arg] => do
      let da ← arg.differentiate P x
      if name = "sin" then pure (.bin .mul (.un .cos arg) da)
      else if name = "cos" then pure (.bin .mul (.un .neg (.un .sin arg)) da)
      else if name = "ln" then pure (.bin .mul (.bin .div (.num 1) arg) da)
      else throw ("Differentiation not implemented for function: " ++ name)
    | _ => throw "Differentiation not implemented for multi-argument functions"

/-- `SymbolicExpression::integrate` with respect to `x`.  The shape checks
compare `toString()` text with the variable name (string identity, not
structural equality), exactly as the C++ does. -/
def SymExpr.integrate (P : Prims) (x : String) : SymExpr → Except String SymExpr
  | .num v => pure (.bin .mul (.num v) (.var x))
  | .var n =>
    if n = x then pure (.bin .div (.bin .pow (.var x) (.num 2)) (.num 2))
    else pure (.bin .mul (.var n) (.var x))
  | .bin op l r =>
    match op with
    | .add => do
      let li ← l.integrate P x
      let ri ← r.integrate P x
      pure (.bin .add li ri)
    | .sub => do
      let li ← l.integrate P x
      let ri ← r.integrate P x
      pure (.bin .sub li ri)
    | .mul =>
      if l.isConstant && !r.isConstant then do
        let ri ← r.integrate P x
        pure (.bin .mul l ri)
      else if !l.isConstant && r.isConstant then do
        let li ← l.integrate P x
        pure (.bin .mul li r)
      else throw "Integration by parts not implemented for general multiplication"
    | .div =>
      if l.isConstant && r.toText = x then
        pure (.bin .mul l (.un .ln (.var x)))
      else throw "Complex division integration not implemented"
    | .pow =>
      if l.toText = x && r.isConstant then do
        let expVal ← r.evaluate P []
        if expVal = -1 then pure (.un .ln (.var x))
        else pure (.bin .div (.bin .pow (.var x) (.num (expVal + 1))) (.num (expVal + 1)))
      else throw "Complex power integration not implemented"
  | .un op e =>
    match op with
    | .pos => e.integrate P x
    | .neg => do
      let i ← e.integrate P x
      pure (.un .neg i)
    | .sin =>
      if e.toText = x then pure (.un .neg (.un .cos (.var x)))
      else throw "Complex sine integration not implemented"
    | .cos =>
      if e.toText = x then pure (.un .sin (.var x))
      else throw "Complex cosine integration not implemented"
    | .ln =>
      if e.toText = x then
        pure (.bin .sub (.bin .mul (.var x) (.un .ln (.var x))) (.var x))
      else throw "Complex logarithm integration not implemented"
    | _ => throw "Integration not implemented for this unary operation"
  | .fn name args =>
    match args with
    | [arg] =>
      if name = "sin" && arg.toText = x then pure (.un .neg (.un .cos (.var x)))
      else if name = "cos" && arg.toText = x then pure (.un .sin (.var x))
      else if name = "ln" && arg.toText = x then
        pure (.bin .sub (.bin .mul (.var x) (.un .ln (.var x))) (.var x))
      else throw ("Integration not implemented for function: " ++ name)
    | _ => throw "Integration not implemented for multi-argument functions"

/-- `SymbolicEngine::solve`: simplify, then handle only a top-level
`ADD`/`SUBTRACT` whose left operand is constant; the surrounding catch block
rewraps any inner failure.  The `x` argument is accepted but, as in the C++,
never used. -/
def solveEq (P : Prims) (x : String) (e : SymExpr) : Except String SymExpr :=
  let inner : Except String SymExpr := do
    let s ← e.simplify P
    match s with
    | .bin op l r =>
      if (op = .add || op = .sub) && l.isConstant then
        if op = .add then pure (.bin .div (.un .neg l) r)
        else pure (.bin .div l r)
      else throw "Complex equation solving not implemented"
    | _ => throw "Complex equation solving not implemented"
  match inner with
  | .ok r => .ok r
  | .error msg => .error ("Equation solving failed: " ++ msg)

mutual

/-- `SymbolicEngine::convertASTToSymbolic`: the one-to-one node-kind mapping
from the AST to the symbolic tree. -/
def ASTN.toSym : ASTN → SymExpr
  | .num v => .num v
  | .var n => .var n
  | .bin op l r => .bin op l.toSym r.toSym
  | .un op e => .un op e.toSym
  | .fn name args => .fn name (ASTN.argsToSym args)

/-- The argument-list loop of `convertASTToSymbolic`. -/
def ASTN.argsToSym : List ASTN → List SymExpr
  | [] => []
  | a :: as => a.toSym :: ASTN.argsToSym as

end

/-! ## Lexer

`Lexer::getNextToken` is modelled as a function producing the whole token
stream; the terminal `END_OF_FILE` token is represented by the end of the
list.  Fuel is threaded only to make the recursion structural: any fuel of
at least `length + 1` yields the full stream, since every emitted token
consumes at least one character. -/

/-- `TokenType` together with the token's text where the C++ carries one. -/
inductive Tok
  | number (s : String)
  | var (s : String)
  | func (s : String)
  | plus
  | minus
  | multiply
  | divide
  | power
  | lparen
  | rparen
  | comma
  | invalid (s : String)
deriving DecidableEq, Repr

/-- Digits consumed from the head of the character list. -/
def digSpan : List Char → Nat
  | c :: cs => if c.isDigit then 1 + digSpan cs else 0
  | [] => 0

/-- Characters consumed by `Lexer::readNumber`'s exponent phase (after the
`e`/`E`): an optional sign, then digits, then an unconditional stop. -/
def expSpan : List Char → Nat
  | c :: cs => if c = '+' ∨ c = '-' then 1 + digSpan cs else digSpan (c :: cs)
  | [] => 0

/-- Characters consumed by `Lexer::readNumber`; `hd` is the `hasDecimal`
flag. -/
def numSpan (hd : Bool) : List Char → Nat
  | c :: cs =>
    if c.isDigit then 1 + numSpan hd cs
    else if c = '.' && !hd then 1 + numSpan true cs
    else if c = 'e' ∨ c = 'E' then 1 + expSpan cs
    else 0
  | [] => 0

/-- Characters consumed by `Lexer::readIdentifier` (alphanumerics and
underscore). -/
def identSpan : List Char → Nat
  | c :: cs => if c.isAlphanum || c = '_' then 1 + identSpan cs else 0
  | [] => 0

/-- The fixed function-name registry (`Lexer::isFunction`). -/
def isFunctionName (s : String) : Bool :=
  s = "sin" || s = "cos" || s = "tan" || s = "log" || s = "ln" || s = "sqrt" || s = "abs"

/-- The token stream produced by repeated `Lexer::getNextToken` calls. -/
def lexAll : Nat → List Char → List Tok
  | 0, _ => []
  | _ + 1, [] => []
  | fuel + 1, c :: cs =>
    if c.isWhitespace then lexAll fuel cs
    else if c.isDigit || c = '.' then
      let n := numSpan false (c :: cs)
      .number ⟨(c :: cs).take n⟩ :: lexAll fuel ((c :: cs).drop n)
    else if c.isAlpha || c = '_' then
      let n := identSpan (c :: cs)
      let s : String := ⟨(c :: cs).take n⟩
      (if isFunctionName s then .func s else .var s) :: lexAll fuel ((c :: cs).drop n)
    else if c = '+' then .plus :: lexAll fuel cs
    else if c = '-' then .minus :: lexAll fuel cs
    else if c = '*' then .multiply :: lexAll fuel cs
    else if c = '/' then .divide :: lexAll fuel cs
    else if c = '^' then .power :: lexAll fuel cs
    else if c = '(' then .lparen :: lexAll fuel cs
    else if c = ')' then .rparen :: lexAll fuel cs
    else if c = ',' then .comma :: lexAll fuel cs
    else .invalid (String.singleton c) :: lexAll fuel cs

/-- The token stream of a string. -/
def lex (s : String) : List Tok := lexAll (s.data.length + 1) s.data

/-- Numeric value of a digit string (most significant first). -/
def digitsVal (l : List Char) : Nat :=
  l.foldl (fun a c => a * 10 + (c.toNat - 48)) 0

/-- Assembles `std::stod`'s result from integer digits, fraction digits and
decimal exponent. -/
def ratOfParts (ipd fpd : List Char) (ex : Int) : Rat :=
  let base : Rat := (digitsVal (ipd ++ fpd) : Rat) / (10 : Rat) ^ fpd.length
  if 0 ≤ ex then base * (10 : Rat) ^ ex.toNat else base / (10 : Rat) ^ (-ex).toNat

/-- `std::stod` on a number token: longest valid numeric prefix; at least one
mantissa digit is required (else `std::invalid_argument`); an exponent
without digits is rolled back. -/
def stod (s : String) : Option Rat :=
  let cs := s.data
  let ipd := cs.takeWhile Char.isDigit
  let cs₁ := cs.dropWhile Char.isDigit
  let fpd :=
    match cs₁ with
    | '.' :: t => t.takeWhile Char.isDigit
    | _ => []
  let cs₂ :=
    match cs₁ with
    | '.' :: t => t.dropWhile Char.isDigit
    | _ => cs₁
  if ipd.length + fpd.length = 0 then none
  else
    let ex : Int :=
      match cs₂ with
      | 'e' :: '+' :: u => (digitsVal (u.takeWhile Char.isDigit) : Int)
      | 'E' :: '+' :: u => (digitsVal (u.takeWhile Char.isDigit) : Int)
      | 'e' :: '-' :: u => -(digitsVal (u.takeWhile Char.isDigit) : Int)
      | 'E' :: '-' :: u => -(digitsVal (u.takeWhile Char.isDigit) : Int)
      | 'e' :: u => (digitsVal (u.takeWhile Char.isDigit) : Int)
      | 'E' :: u => (digitsVal (u.takeWhile Char.isDigit) : Int)
      | _ => 0
    some (ratOfParts ipd fpd ex)

/-! ## Parser

`Parser` is modelled over the token list; fuel makes the mutual recursion
structural, and is threaded down by one at every call.  `parse` supplies
fuel amply beyond what any input can consume. -/

/-- The implicit-multiplication test of `Parser::parseFactor`: tokens that
can start a factor. -/
def canStartFactor : Tok → Bool
  | .number _ => true
  | .var _ => true
  | .func _ => true
  | .lparen => true
  | _ => false

mutual

/-- `Parser::parseTerm` (and `Parser::parseExpression`, which just calls
it): a left-associative chain of factors over `+`/`-`. -/
def parseTermF : Nat → List Tok → Except String (ASTN × List Tok)
  | 0, _ => throw "out of fuel"
  | fuel + 1, toks => do
    let (l, rest) ← parseFactorF fuel toks
    parseTermLoopF fuel l rest

/-- The `while` loop of `parseTerm`. -/
def parseTermLoopF : Nat → ASTN → List Tok → Except String (ASTN × List Tok)
  | 0, _, _ => throw "out of fuel"
  | fuel + 1, left, toks =>
    match toks with
    | .plus :: rest => do
      let (r, rest') ← parseFactorF fuel rest
      parseTermLoopF fuel (.bin .add left r) rest'
    | .minus :: rest => do
      let (r, rest') ← parseFactorF fuel rest
      parseTermLoopF fuel (.bin .sub left r) rest'
    | _ => pure (left, toks)

/-- `Parser::parseFactor`: powers chained by `*`, `/`, or a synthetic
multiplication whenever the next token can start a factor. -/
def parseFactorF : Nat → List Tok → Except String (ASTN × List Tok)
  | 0, _ => throw "out of fuel"
  | fuel + 1, toks => do
    let (l, rest) ← parsePowerF fuel toks
    parseFactorLoopF fuel l rest

/-- The `while` loop of `parseFactor`. -/
def parseFactorLoopF : Nat → ASTN → List Tok → Except String (ASTN × List Tok)
  | 0, _, _ => throw "out of fuel"
  | fuel + 1, left, toks =>
    match toks with
    | .multiply :: rest => do
      let (r, rest') ← parsePowerF fuel rest
      parseFactorLoopF fuel (.bin .mul left r) rest'
    | .divide :: rest => do
      let (r, rest') ← parsePowerF fuel rest
      parseFactorLoopF fuel (.bin .div left r) rest'
    | t :: rest =>
      if canStartFactor t then do
        let (r, rest') ← parsePowerF fuel (t :: rest)
        parseFactorLoopF fuel (.bin .mul left r) rest'
      else pure (left, toks)
    | [] => pure (left, toks)

/-- `Parser::parsePower`: `primary (^ power)?`, right-associative. -/
def parsePowerF : Nat → List Tok → Except String (ASTN × List Tok)
  | 0, _ => throw "out of fuel"
  | fuel + 1, toks => do
    let (l, rest) ← parsePrimaryF fuel toks
    match rest with
    | .power :: rest' => do
      let (r, rest'') ← parsePowerF fuel rest'
      pure (.bin .pow l r, rest'')
    | _ => pure (l, rest)

/-- `Parser::parsePrimary`. -/
def parsePrimaryF : Nat → List Tok → Except String (ASTN × List Tok)
  | 0, _ => throw "out of fuel"
  | fuel + 1, toks =>
    match toks with
    | .number s :: rest =>
      (match stod s with
       | some v => pure (.num v, rest)
       | none => throw "invalid number literal")
    | .var n :: rest => pure (.var n, rest)
    | .func name :: rest => parseFunctionF fuel name rest
    | .lparen :: rest => do
      let (e, rest') ← parseTermF fuel rest
      (match rest' with
       | .rparen :: rest'' => pure (e, rest'')
       | _ => throw "Expected closing parenthesis")
    | .plus :: rest => do
      let (o, rest') ← parsePrimaryF fuel rest
      pure (.un .pos o, rest')
    | .minus :: rest => do
      let (o, rest') ← parsePrimaryF fuel rest
      pure (.un .neg o, rest')
    | _ => throw "Unexpected token"

/-- `Parser::parseFunction`, entered after the function-name token. -/
def parseFunctionF : Nat → String → List Tok → Except String (ASTN × List Tok)
  | 0, _, _ => throw "out of fuel"
  | fuel + 1, name, toks =>
    match toks with
    | .lparen :: rest =>
      (match rest with
       | .rparen :: rest' => pure (.fn name [], rest')
       | _ => do
         let (a, rest') ← parseTermF fuel rest
         parseArgsF fuel name [a] rest')
    | _ => throw "Expected opening parenthesis after function name"

/-- The comma loop of `parseFunction`; `acc` holds the arguments parsed so
far, in reverse. -/
def parseArgsF : Nat → String → List ASTN → List Tok → Except String (ASTN × List Tok)
  | 0, _, _, _ => throw "out of fuel"
  | fuel + 1, name, acc, toks =>
    match toks with
    | .comma :: rest => do
      let (a, rest') ← parseTermF fuel rest
      parseArgsF fuel name (a :: acc) rest'
    | .rparen :: rest => pure (.fn name acc.reverse, rest)
    | _ => throw "Expected closing parenthesis"

end

/-- `Parser::parse` via `ExpressionParser::parse`: lex, parse a term,
require the terminal `END_OF_FILE`. -/
def parse (s : String) : Except String ASTN :=
  let toks := lex s
  match parseTermF (5 * toks.length + 5) toks with
  | .ok (t, []) => .ok t
  | .ok (_, _ :: _) => .error "Expected end of expression"
  | .error msg => .error msg

/-- `SymbolicEngine::parseFromString`: parse then convert the AST to a
symbolic expression (`parseFromAST`). -/
def parseToSym (s : String) : Except String SymExpr :=
  match parse s with
  | .ok t => .ok t.toSym
  | .error msg => .error msg

/-! ## Predicates used in statements -/

mutual

/-- The set of variable names occurring in a symbolic expression. -/
def SymExpr.varsIn : SymExpr → Finset String
  | .num _ => ∅
  | .var n => {n}
  | .bin _ l r => l.varsIn ∪ r.varsIn
  | .un _ e => e.varsIn
  | .fn _ args => SymExpr.varsArgs args

/-- Variable names occurring in an argument list. -/
def SymExpr.varsArgs : List SymExpr → Finset String
  | [] => ∅
  | a :: as => a.varsIn ∪ SymExpr.varsArgs as

end

mutual

/-- No `SUBTRACT` binary node anywhere (unary `NEGATIVE` is allowed). -/
def SymExpr.noSub : SymExpr → Bool
  | .num _ => true
  | .var _ => true
  | .bin op l r => !(op == .sub) && l.noSub && r.noSub
  | .un _ e => e.noSub
  | .fn _ args => SymExpr.noSubArgs args

/-- `noSub` over an argument list. -/
def SymExpr.noSubArgs : List SymExpr → Bool
  | [] => true
  | a :: as => a.noSub && SymExpr.noSubArgs as

end

/-- Shape invariant of `simplify` outputs on `SUBTRACT`-free input: whenever
the output is a `NEGATIVE` node, its operand is itself a simplify fixpoint
and is non-constant, non-zero, and not itself `NEGATIVE`-headed (a fresh
`NEGATIVE` over other shapes is built only by the zero-left `SUBTRACT`
rule). -/
def SymExpr.negFixInfo (P : Prims) (r : SymExpr) : Prop :=
  ∀ i, r = .un .neg i →
    (i.simplify P = .ok i ∧ i.isConstant = false ∧ i.isZero = false ∧
      ∀ j, i ≠ .un .neg j)

/-- A lexable non-function identifier, phrased on the characters the lexer
actually inspects: the head is consumed by the identifier branch (not
whitespace, not a number start, alphabetic or underscore) and `readIdentifier`
consumes the whole string. -/
def identOk (s : String) : Bool :=
  match s.data with
  | [] => false
  | c :: cs =>
    !c.isWhitespace && !(c.isDigit || c = '.') && (c.isAlpha || c = '_') &&
      (identSpan (c :: cs) == (c :: cs).length)

/-- Number leaves whose printed form survives the lexer and `std::stod`
round trip: the `fmtRat` text starts the number branch, `readNumber` consumes
exactly it before each separator that can follow it in printed output, and
`std::stod` reads the original value back. -/
def numTokOk (v : Rat) : Bool :=
  let cs := (fmtRat v).data
  (match cs with
   | c :: _ => !c.isWhitespace && (c.isDigit || c = '.')
   | [] => false)
    && (numSpan false cs == cs.length)
    && (numSpan false (cs ++ [' ']) == cs.length)
    && (numSpan false (cs ++ [')']) == cs.length)
    && (numSpan false (cs ++ [',']) == cs.length)
    && (stod (fmtRat v) == some v)

mutual

/-- Trees the parser can actually produce: unary nodes only `POSITIVE` or
`NEGATIVE`, function names from the registry, variable names lexable
non-function identifiers. -/
def ASTN.goodT : ASTN → Bool
  | .num _ => true
  | .var n => identOk n && !isFunctionName n
  | .bin _ l r => l.goodT && r.goodT
  | .un op e => (op == .pos || op == .neg) && e.goodT
  | .fn name args => isFunctionName name && ASTN.goodArgs args

/-- `goodT` over an argument list. -/
def ASTN.goodArgs : List ASTN → Bool
  | [] => true
  | a :: as => a.goodT && ASTN.goodArgs as

end

mutual

/-- Every number leaf satisfies `numTokOk`. -/
def ASTN.numsOk : ASTN → Bool
  | .num v => numTokOk v
  | .var _ => true
  | .bin _ l r => l.numsOk && r.numsOk
  | .un _ e => e.numsOk
  | .fn _ args => ASTN.numsArgsOk args

/-- `numsOk` over an argument list. -/
def ASTN.numsArgsOk : List ASTN → Bool
  | [] => true
  | a :: as => a.numsOk && ASTN.numsArgsOk as

end

/-- The binary-operator token of the printed form. -/
def BinOp.tok : BinOp → Tok
  | .add => .plus
  | .sub => .minus
  | .mul => .multiply
  | .div => .divide
  | .pow => .power

mutual

/-- The token stream the lexer yields on `ASTN.toText t`. -/
def ASTN.ptoks : ASTN → List Tok
  | .num v => [.number (fmtRat v)]
  | .var n => [.var n]
  | .bin op l r => .lparen :: (l.ptoks ++ (op.tok :: (r.ptoks ++ [.rparen])))
  | .un op e =>
    match op with
    | .pos => .plus :: e.ptoks
    | .neg => .minus :: e.ptoks
    | .sin => .func "sin" :: .lparen :: (e.ptoks ++ [.rparen])
    | .cos => .func "cos" :: .lparen :: (e.ptoks ++ [.rparen])
    | .tan => .func "tan" :: .lparen :: (e.ptoks ++ [.rparen])
    | .log => .func "log" :: .lparen :: (e.ptoks ++ [.rparen])
    | .ln => .func "ln" :: .lparen :: (e.ptoks ++ [.rparen])
    | .sqrt => .func "sqrt" :: .lparen :: (e.ptoks ++ [.rparen])
    | .abs => .func "abs" :: .lparen :: (e.ptoks ++ [.rparen])
  | .fn name args => .func name :: .lparen :: (ASTN.ptoksArgs args ++ [.rparen])

/-- Printed tokens of a (possibly empty) argument list. -/
def ASTN.ptoksArgs : List ASTN → List Tok
  | [] => []
  | a :: as => a.ptoks ++ ASTN.ptoksMore as

/-- Printed tokens of the remaining arguments, each preceded by a comma. -/
def ASTN.ptoksMore : List ASTN → List Tok
  | [] => []
  | a :: as => .comma :: (a.ptoks ++ ASTN.ptoksMore as)

end

/-- Token well-formedness guaranteed by the lexer: identifier tokens carry
lexable identifiers, and the function/variable split follows the registry. -/
def wfTok : Tok → Bool
  | .var s => identOk s && !isFunctionName s
  | .func s => isFunctionName s
  | _ => true

/-- The lexer with its canonical fuel. -/
def lexer (cs : List Char) : List Tok := lexAll (cs.length + 1) cs

/-- Heads that can follow a complete printed subexpression: nothing, a
space, a closing parenthesis or an argument comma. -/
def sepHead : List Char → Bool
  | [] => true
  | c :: _ => c = ' ' || c = ')' || c = ','

/-- Heads that stop `readIdentifier`. -/
def identStop : List Char → Bool
  | [] => true
  | c :: _ => !(c.isAlphanum || c = '_')

/-- Token heads after which `parsePower` does not continue. -/
def headNotPow : List Tok → Bool
  | .power :: _ => false
  | _ => true

/-- Token heads at which the `parseFactor` loop stops: not `*`, not `/`,
and not able to start a factor. -/
def stopsFactor : List Tok → Bool
  | [] => true
  | t :: _ => (t == .plus) || (t == .minus) || (t == .rparen) || (t == .comma)

/-- Token heads at which the `parseTerm` loop stops as well. -/
def stopsTerm : List Tok → Bool
  | [] => true
  | t :: _ => (t == .rparen) || (t == .comma)

/-! ## Generic lemmas about `Except` -/

@[simp] theorem ok_bind {α β : Type} (a : α) (f : α → Except String β) :
    (Except.ok a >>= f) = f a := rfl

@[simp] theorem error_bind {α β : Type} (msg : String) (f : α → Except String β) :
    ((Except.error msg : Except String α) >>= f) = Except.error msg := rfl

@[simp] theorem throw_eq_error {α : Type} (msg : String) :
    (throw msg : Except String α) = Except.error msg := rfl

@[simp] theorem map_ok {α β : Type} (f : α → β) (a : α) :
    (f <$> (Except.ok a : Except String α)) = Except.ok (f a) := rfl

@[simp] theorem map_error {α β : Type} (f : α → β) (msg : String) :
    (f <$> (Except.error msg : Except String α)) = Except.error msg := rfl

@[simp] theorem pure_eq_ok {α : Type} (a : α) :
    (pure a : Except String α) = Except.ok a := rfl

theorem bind_eq_ok {α β : Type} {x : Except String α} {f : α → Except String β} {b : β}
    (h : (x >>= f) = .ok b) : ∃ a, x = .ok a ∧ f a = .ok b := by
  cases x with
  | error m => exact absurd h (by simp)
  | ok a => exact ⟨a, rfl, by simpa using h⟩

/-! ## Claim theorems: precedence, implicit multiplication, arity (C4, C5, C9) -/

/-- C4: the parser resolves precedence and associativity so that
`parse("2 + 3 * 4")` evaluates to 14, `parse("(2 + 3) * 4")` evaluates to
20, and `parse("2 ^ 3 ^ 2")` evaluates to 512; the power tree is the
right-associated `2 ^ (3 ^ 2)`. -/
theorem precedence_examples :
    (parse "2 + 3 * 4").bind (fun t => t.evaluate ratPrims []) = .ok 14
    ∧ (parse "(2 + 3) * 4").bind (fun t => t.evaluate ratPrims []) = .ok 20
    ∧ parse "2 ^ 3 ^ 2" = .ok (.bin .pow (.num 2) (.bin .pow (.num 3) (.num 2)))
    ∧ (parse "2 ^ 3 ^ 2").bind (fun t => t.evaluate ratPrims []) = .ok 512 :=
  ⟨rfl, rfl, rfl, rfl⟩

/-- C5: when the token after a factor can start a factor (number, variable,
function name or left parenthesis), `parseFactor`'s loop inserts a synthetic
multiplication and parses another power; in particular `parse "2x"` yields
`2 * x`, which evaluates to 10 under `x := 5`. -/
theorem implicit_multiplication :
    (∀ f left tk rest, canStartFactor tk = true →
      parseFactorLoopF (f + 1) left (tk :: rest) =
        (parsePowerF f (tk :: rest)).bind
          (fun p => parseFactorLoopF f (.bin .mul left p.1) p.2))
    ∧ parse "2x" = .ok (.bin .mul (.num 2) (.var "x"))
    ∧ (parse "2x").bind (fun t => t.evaluate ratPrims [("x", 5)]) = .ok 10 := by
  refine ⟨fun f left tk rest h => ?_, rfl, rfl⟩
  cases tk <;> simp_all [parseFactorLoopF, canStartFactor] <;> rfl

/-- C5 witness: the unfolding step at the concrete input `2x` (the factor
`2` followed by the variable token `x`). -/
theorem implicit_multiplication_witness :
    canStartFactor (.var "x") = true
    ∧ parseFactorLoopF 6 (.num 2) [.var "x"] =
        (parsePowerF 5 [.var "x"]).bind
          (fun p => parseFactorLoopF 5 (.bin .mul (.num 2) p.1) p.2) :=
  ⟨rfl, implicit_multiplication.1 5 (.num 2) (.var "x") [] rfl⟩

/-- C9: `parse "sin()"` succeeds and produces a `FunctionNode` with zero
arguments; the arity violation surfaces only when that node is evaluated,
as a `Function sin expects 1 argument` error. -/
theorem empty_function_call_parses :
    parse "sin()" = .ok (.fn "sin" [])
    ∧ (ASTN.fn "sin" []).evaluate ratPrims [] =
        .error "Function sin expects 1 argument" :=
  ⟨rfl, rfl⟩

/-! ## Claim theorems: differentiation and integration shapes (C6, C7) -/

/-- C6: differentiating `Pow(base, c)` with a constant exponent of value `n`
yields the product of `base ^ (n-1)` with `n * dbase` (the chain rule folded
in as a multiplication by the derivative of the base, with the power factor
on the left exactly as `SymbolicBinaryOp::differentiate` builds it);
a non-constant exponent fails. -/
theorem pow_differentiation (P : Prims) (x : String) :
    (∀ b c n db, c.isConstant = true → c.evaluate P [] = .ok n →
      b.differentiate P x = .ok db →
      (SymExpr.bin .pow b c).differentiate P x =
        .ok (.bin .mul (.bin .pow b (.num (n - 1))) (.bin .mul (.num n) db)))
    ∧ (∀ b c, c.isConstant = false →
      (SymExpr.bin .pow b c).differentiate P x =
        .error "Differentiation of variable exponents not implemented") := by
  constructor
  · intro b c n db hc hn hb
    simp [SymExpr.differentiate, hc, hn, hb]
  · intro b c hc
    simp [SymExpr.differentiate, hc]

/-- C6 witness: `d/dx x^3 = x^2 * (3 * 1)` and `d/dx x^y` fails. -/
theorem pow_differentiation_witness :
    (SymExpr.bin .pow (.var "x") (.num 3)).differentiate ratPrims "x" =
      .ok (.bin .mul (.bin .pow (.var "x") (.num 2)) (.bin .mul (.num 3) (.num 1)))
    ∧ (SymExpr.bin .pow (.var "x") (.var "y")).differentiate ratPrims "x" =
      .error "Differentiation of variable exponents not implemented" :=
  ⟨(pow_differentiation ratPrims "x").1 (.var "x") (.num 3) 3 (.num 1) rfl rfl rfl,
   (pow_differentiation ratPrims "x").2 (.var "x") (.var "y") rfl⟩

/-- C7: integrating `Mul` pulls a constant operand out (`Mul(const, f)` and
`Mul(f, const)` integrate `f` and keep the constant as a factor), while a
product of two non-constant operands fails with the integration-by-parts
error; in particular `x * y` with respect to `x` fails. -/
theorem mul_integration (P : Prims) (x : String) :
    (∀ l r ri, l.isConstant = true → r.isConstant = false →
      r.integrate P x = .ok ri →
      (SymExpr.bin .mul l r).integrate P x = .ok (.bin .mul l ri))
    ∧ (∀ l r li, l.isConstant = false → r.isConstant = true →
      l.integrate P x = .ok li →
      (SymExpr.bin .mul l r).integrate P x = .ok (.bin .mul li r))
    ∧ (∀ l r, l.isConstant = false → r.isConstant = false →
      (SymExpr.bin .mul l r).integrate P x =
        .error "Integration by parts not implemented for general multiplication") := by
  refine ⟨fun l r ri hl hr hi => ?_, fun l r li hl hr hi => ?_, fun l r hl hr => ?_⟩
  · simp [SymExpr.integrate, hl, hr, hi]
  · simp [SymExpr.integrate, hl, hr, hi]
  · simp [SymExpr.integrate, hl, hr]

/-- C7 witness: `∫ 2x dx = 2 * (x^2 / 2)` by pulling the constant out, and
`∫ x*y dx` fails with the integration-by-parts error. -/
theorem mul_integration_witness :
    (SymExpr.bin .mul (.num 2) (.var "x")).integrate ratPrims "x" =
      .ok (.bin .mul (.num 2) (.bin .div (.bin .pow (.var "x") (.num 2)) (.num 2)))
    ∧ (SymExpr.bin .mul (.var "x") (.var "y")).integrate ratPrims "x" =
      .error "Integration by parts not implemented for general multiplication" :=
  ⟨(mul_integration ratPrims "x").1 (.num 2) (.var "x")
      (.bin .div (.bin .pow (.var "x") (.num 2)) (.num 2)) rfl rfl rfl,
   (mul_integration ratPrims "x").2.2 (.var "x") (.var "y") rfl rfl⟩

/-! ## Claim theorems: solving (C8) -/

/-- C8 counterexample: `solve` on the expression parsed from `2*x - 3` does
not succeed at all (so it cannot yield a constant simplifying to 1.5). -/
theorem solve_linear_fails :
    ((parseToSym "2*x - 3").bind (solveEq ratPrims "x")).isOk = false :=
  rfl

/-- C8 (amended): `solve` on `2*x - 3` fails with the TransformError
`Equation solving failed: Complex equation solving not implemented`, because
the left operand of the top-level SUBTRACT is `2*x`, which is not constant;
`solve` succeeds only when the simplified top level is an `ADD`/`SUBTRACT`
with a constant left operand, e.g. on `3 - 2*x` it returns `3 / (2*x)`. -/
theorem solve_constant_left_only :
    (parseToSym "2*x - 3").bind (solveEq ratPrims "x") =
      .error "Equation solving failed: Complex equation solving not implemented"
    ∧ (parseToSym "3 - 2*x").bind (solveEq ratPrims "x") =
      .ok (.bin .div (.num 3) (.bin .mul (.num 2) (.var "x"))) :=
  ⟨rfl, rfl⟩

/-! ## Claim theorems: unary constant folding (C10) -/

/-- C10 counterexample: at the claim's example input `Neg(0 * x)` simplify
does NOT raise an undefined-variable error; the operand simplifies to the
literal zero, the `NEGATIVE` zero special case fires first, and the result
is the number 0. -/
theorem neg_zero_times_x_simplifies :
    SymExpr.simplify ratPrims (.un .neg (.bin .mul (.num 0) (.var "x"))) =
      .ok (.num 0) :=
  rfl

/-- C10 (amended): when a unary node's simplified operand is constant,
simplify folds it by evaluating the ORIGINAL unsimplified node with an empty
binding map (for every operator except `POSITIVE`, and except `NEGATIVE`
when the zero or double-negation special cases fire first); hence e.g.
`Sin(0 * x)` and `Neg(x ^ 0)` raise `Undefined variable: x`, while
`Neg(0 * x)` instead returns 0 through the zero special case. -/
theorem unary_fold_evaluates_original :
    (∀ (P : Prims) (op : UnOp) (e so : SymExpr), op ≠ .pos → op ≠ .neg →
      e.simplify P = .ok so → so.isConstant = true →
      (SymExpr.un op e).simplify P =
        (SymExpr.evaluate P (.un op e) []).bind (fun v => .ok (.num v)))
    ∧ SymExpr.simplify ratPrims (.un .sin (.bin .mul (.num 0) (.var "x"))) =
        .error "Undefined variable: x"
    ∧ SymExpr.simplify ratPrims (.un .neg (.bin .pow (.var "x") (.num 0))) =
        .error "Undefined variable: x"
    ∧ SymExpr.simplify ratPrims (.un .neg (.bin .mul (.num 0) (.var "x"))) =
        .ok (.num 0) := by
  refine ⟨fun P op e so hp hn hs hc => ?_, rfl, rfl, rfl⟩
  cases op <;> simp only [SymExpr.simplify, hs, ok_bind, simpUn, hc, if_true]
  case pos => exact absurd rfl hp
  case neg => exact absurd rfl hn
  all_goals cases SymExpr.evaluate P _ [] <;> rfl

/-- C10 witness: the folding rule applied at `Sin(0 * x)`, whose operand
simplifies to the constant 0 yet whose original-node evaluation fails on the
variable `x`. -/
theorem unary_fold_evaluates_original_witness :
    (SymExpr.bin .mul (.num 0) (.var "x")).simplify ratPrims = .ok (.num 0)
    ∧ (SymExpr.num 0).isConstant = true
    ∧ SymExpr.simplify ratPrims (.un .sin (.bin .mul (.num 0) (.var "x"))) =
        (SymExpr.evaluate ratPrims (.un .sin (.bin .mul (.num 0) (.var "x"))) []).bind
          (fun v => .ok (.num v)) :=
  ⟨rfl, rfl,
   unary_fold_evaluates_original.1 ratPrims .sin (.bin .mul (.num 0) (.var "x"))
     (.num 0) (by simp) (by simp) rfl rfl⟩

/-! ## Claim theorems: counterexamples for C1, C2, C3 -/

/-- C1 counterexample: simplify is not idempotent; `simplify (0 - 5)` is the
unary node `-(5)` (the zero-left SUBTRACT rule fires before constant
folding), but simplifying `-(5)` again folds it to the number `-5`. -/
theorem simplify_not_idempotent :
    SymExpr.simplify ratPrims (.bin .sub (.num 0) (.num 5)) =
      .ok (.un .neg (.num 5))
    ∧ SymExpr.simplify ratPrims (.un .neg (.num 5)) = .ok (.num (-5))
    ∧ (SymExpr.un .neg (.num 5)) ≠ (.num (-5)) :=
  ⟨rfl, rfl, fun h => SymExpr.noConfusion h⟩

/-- C2 counterexample: simplification can erase variables; `x * 0`
simplifies to the literal 0, whose variable set is empty while the input's
is `{x}`. -/
theorem simplify_drops_variables :
    SymExpr.simplify ratPrims (.bin .mul (.var "x") (.num 0)) = .ok (.num 0)
    ∧ (SymExpr.num 0).varsIn ≠ (SymExpr.bin .mul (.var "x") (.num 0)).varsIn := by
  refine ⟨rfl, ?_⟩
  intro h
  have hx : "x" ∈ (SymExpr.bin .mul (.var "x") (.num 0)).varsIn := by
    simp [SymExpr.varsIn]
  rw [← h] at hx
  simp [SymExpr.varsIn] at hx

/-- C3 counterexample: the printed form is limited to 6 significant digits,
so `parse "1234567"` re-parses to a different numeric leaf: the first parse
yields the literal 1234567 but its printed form `1.23457e+06` re-parses to
1234570. -/
theorem roundtrip_loses_precision :
    parse "1234567" = .ok (.num 1234567)
    ∧ ASTN.toText (.num 1234567) = "1.23457e+06"
    ∧ parse (ASTN.toText (.num 1234567)) = .ok (.num 1234570)
    ∧ (ASTN.num 1234570) ≠ (.num 1234567) := by
  refine ⟨rfl, rfl, rfl, fun h => ?_⟩
  injection h with h'
  exact absurd h' (by decide)

/-! ## C2 (amended): simplification never introduces variables -/

theorem varsIn_simpBin {P : Prims} {op : BinOp} {sl sr r : SymExpr}
    (h : simpBin P op sl sr = .ok r) :
    r.varsIn ⊆ sl.varsIn ∪ sr.varsIn := by
  cases op <;> simp only [simpBin] at h <;> split_ifs at h <;>
    try (cases ea : SymExpr.evaluate P sl [] <;>
      simp only [ea, ok_bind, error_bind] at h <;>
      try (cases eb : SymExpr.evaluate P sr [] <;>
        simp only [eb, ok_bind, error_bind] at h))
  all_goals try exact (Except.noConfusion h)
  all_goals simp only [pure_eq_ok, Except.ok.injEq] at h
  all_goals subst h
  all_goals simp [SymExpr.varsIn, Finset.subset_union_left, Finset.subset_union_right]

theorem varsIn_simpUn {P : Prims} {op : UnOp} {orig so r : SymExpr}
    (h : simpUn P op orig so = .ok r) :
    r.varsIn ⊆ so.varsIn := by
  cases op <;> simp only [simpUn] at h
  case pos =>
    simp only [pure_eq_ok, Except.ok.injEq] at h
    subst h
    exact Finset.Subset.refl _
  case neg =>
    by_cases h1 : so.isZero = true
    · rw [if_pos h1] at h
      simp only [pure_eq_ok, Except.ok.injEq] at h
      subst h
      simp [SymExpr.varsIn]
    · rw [if_neg h1] at h
      split at h
      · simp only [pure_eq_ok, Except.ok.injEq] at h
        subst h
        simp [SymExpr.varsIn]
      · split_ifs at h with h2
        · obtain ⟨v, hv, h⟩ := bind_eq_ok h
          simp only [pure_eq_ok, Except.ok.injEq] at h
          subst h
          simp [SymExpr.varsIn]
        · simp only [pure_eq_ok, Except.ok.injEq] at h
          subst h
          simp [SymExpr.varsIn]
  all_goals
    split_ifs at h with h1
    case pos =>
      obtain ⟨v, hv, h⟩ := bind_eq_ok h
      simp only [pure_eq_ok, Except.ok.injEq] at h
      subst h
      simp [SymExpr.varsIn]
    case neg =>
      simp only [pure_eq_ok, Except.ok.injEq] at h
      subst h
      simp [SymExpr.varsIn]

mutual

theorem varsIn_simplify (P : Prims) (e r : SymExpr)
    (h : e.simplify P = .ok r) : r.varsIn ⊆ e.varsIn := by
  cases e with
  | num v =>
    simp only [SymExpr.simplify, pure_eq_ok, Except.ok.injEq] at h
    subst h
    exact Finset.Subset.refl _
  | var n =>
    simp only [SymExpr.simplify, pure_eq_ok, Except.ok.injEq] at h
    subst h
    exact Finset.Subset.refl _
  | bin op l r' =>
    simp only [SymExpr.simplify] at h
    cases hl : SymExpr.simplify P l with
    | error m => simp [hl] at h
    | ok sl =>
      cases hr : SymExpr.simplify P r' with
      | error m => simp [hl, hr] at h
      | ok sr =>
        simp only [hl, hr, ok_bind] at h
        calc r.varsIn ⊆ sl.varsIn ∪ sr.varsIn := varsIn_simpBin h
          _ ⊆ l.varsIn ∪ r'.varsIn :=
            Finset.union_subset_union (varsIn_simplify P l sl hl) (varsIn_simplify P r' sr hr)
          _ = (SymExpr.bin op l r').varsIn := by simp [SymExpr.varsIn]
  | un op e0 =>
    simp only [SymExpr.simplify] at h
    cases he : SymExpr.simplify P e0 with
    | error m => simp [he] at h
    | ok so =>
      simp only [he, ok_bind] at h
      calc r.varsIn ⊆ so.varsIn := varsIn_simpUn h
        _ ⊆ e0.varsIn := varsIn_simplify P e0 so he
        _ = (SymExpr.un op e0).varsIn := by simp [SymExpr.varsIn]
  | fn name args =>
    simp only [SymExpr.simplify] at h
    cases ha : SymExpr.simplifyArgs P args with
    | error m => simp [ha] at h
    | ok sargs =>
      simp only [ha, ok_bind] at h
      split_ifs at h with hconst
      · obtain ⟨v, hv, h⟩ := bind_eq_ok h
        simp only [pure_eq_ok, Except.ok.injEq] at h
        subst h
        simp [SymExpr.varsIn]
      · simp only [pure_eq_ok, Except.ok.injEq] at h
        subst h
        simpa [SymExpr.varsIn] using varsIn_simplifyArgs P args sargs ha

theorem varsIn_simplifyArgs (P : Prims) (as rs : List SymExpr)
    (h : SymExpr.simplifyArgs P as = .ok rs) :
    SymExpr.varsArgs rs ⊆ SymExpr.varsArgs as := by
  cases as with
  | nil =>
    simp only [SymExpr.simplifyArgs, pure_eq_ok, Except.ok.injEq] at h
    subst h
    exact Finset.Subset.refl _
  | cons a as' =>
    simp only [SymExpr.simplifyArgs] at h
    cases ha : SymExpr.simplify P a with
    | error m => simp [ha] at h
    | ok sa =>
      cases has : SymExpr.simplifyArgs P as' with
      | error m => simp [ha, has] at h
      | ok sas =>
        simp only [ha, has, ok_bind, pure_eq_ok, Except.ok.injEq] at h
        subst h
        simp only [SymExpr.varsArgs]
        exact Finset.union_subset_union (varsIn_simplify P a sa ha)
          (varsIn_simplifyArgs P as' sas has)

end

/-- C2 (amended): for every symbolic expression `e` on which simplify
succeeds, the set of variable names occurring in `simplify(e)` is a SUBSET
of the set occurring in `e`: simplification never introduces variables, but
it can erase them (the annihilator rules `x*0 → 0` and `x^0 → 1` drop `x`). -/
theorem simplify_vars_subset (P : Prims) (e r : SymExpr)
    (h : e.simplify P = .ok r) : r.varsIn ⊆ e.varsIn :=
  varsIn_simplify P e r h

/-! ## C1 (amended): simplify is idempotent away from `SUBTRACT` -/

theorem simpUn_neg_nothead (P : Prims) (orig so : SymExpr)
    (hz : so.isZero = false) (hnn : ∀ j, so ≠ .un .neg j) :
    simpUn P .neg orig so =
      (if so.isConstant then do
        let v ← SymExpr.evaluate P (.un .neg orig) []
        pure (.num v)
      else pure (.un .neg so)) := by
  cases so
  case un op2 inner =>
    cases op2
    case neg => exact absurd rfl (hnn inner)
    all_goals simp [simpUn, hz]
  all_goals simp [simpUn, hz]

theorem simpUn_neg_wild {P : Prims} {orig so r : SymExpr}
    (hz : so.isZero = false) (hnn : ∀ j, so ≠ .un .neg j)
    (hfix : so.simplify P = .ok so)
    (h : simpUn P .neg orig so = .ok r) :
    r.simplify P = .ok r ∧ SymExpr.negFixInfo P r := by
  rw [simpUn_neg_nothead P orig so hz hnn] at h
  by_cases hc : so.isConstant = true
  · rw [if_pos hc] at h
    obtain ⟨v, _, h2⟩ := bind_eq_ok h
    simp only [pure_eq_ok, Except.ok.injEq] at h2
    subst h2
    exact ⟨rfl, fun i hi => SymExpr.noConfusion hi⟩
  · rw [if_neg hc] at h
    simp only [pure_eq_ok, Except.ok.injEq] at h
    subst h
    refine ⟨?_, ?_⟩
    · simp only [SymExpr.simplify, hfix, ok_bind]
      rw [simpUn_neg_nothead P so so hz hnn, if_neg hc]
      rfl
    · intro i hi
      injection hi with h1 h2
      subst h2
      exact ⟨hfix, by simpa using hc, hz, hnn⟩

mutual

theorem simplify_fix (P : Prims) (e r : SymExpr)
    (hn : e.noSub = true) (h : e.simplify P = .ok r) :
    r.simplify P = .ok r ∧ SymExpr.negFixInfo P r := by
  cases e with
  | num v =>
    simp only [SymExpr.simplify, pure_eq_ok, Except.ok.injEq] at h
    subst h
    exact ⟨rfl, fun i hi => SymExpr.noConfusion hi⟩
  | var n =>
    simp only [SymExpr.simplify, pure_eq_ok, Except.ok.injEq] at h
    subst h
    exact ⟨rfl, fun i hi => SymExpr.noConfusion hi⟩
  | bin op l r' =>
    simp only [SymExpr.noSub, Bool.and_eq_true, Bool.not_eq_true'] at hn
    obtain ⟨⟨hop, hnl⟩, hnr⟩ := hn
    simp only [SymExpr.simplify] at h
    obtain ⟨sl, hl, h⟩ := bind_eq_ok h
    obtain ⟨sr, hr, h⟩ := bind_eq_ok h
    have ihl := simplify_fix P l sl hnl hl
    have ihr := simplify_fix P r' sr hnr hr
    have hsb := h
    cases op with
    | sub => simp at hop
    | add =>
      simp only [simpBin] at h
      split_ifs at h with h1 h2 h3
      · simp only [pure_eq_ok, Except.ok.injEq] at h
        subst h
        exact ihr
      · simp only [pure_eq_ok, Except.ok.injEq] at h
        subst h
        exact ihl
      · obtain ⟨a, _, h⟩ := bind_eq_ok h
        obtain ⟨b, _, h⟩ := bind_eq_ok h
        simp only [pure_eq_ok, Except.ok.injEq] at h
        subst h
        exact ⟨rfl, fun i hi => SymExpr.noConfusion hi⟩
      · simp only [pure_eq_ok, Except.ok.injEq] at h
        subst h
        refine ⟨?_, fun i hi => SymExpr.noConfusion hi⟩
        simp only [SymExpr.simplify, ihl.1, ihr.1, ok_bind]
        exact hsb
    | mul =>
      simp only [simpBin] at h
      split_ifs at h with h1 h2 h3 h4
      · simp only [pure_eq_ok, Except.ok.injEq] at h
        subst h
        exact ⟨rfl, fun i hi => SymExpr.noConfusion hi⟩
      · simp only [pure_eq_ok, Except.ok.injEq] at h
        subst h
        exact ihr
      · simp only [pure_eq_ok, Except.ok.injEq] at h
        subst h
        exact ihl
      · obtain ⟨a, _, h⟩ := bind_eq_ok h
        obtain ⟨b, _, h⟩ := bind_eq_ok h
        simp only [pure_eq_ok, Except.ok.injEq] at h
        subst h
        exact ⟨rfl, fun i hi => SymExpr.noConfusion hi⟩
      · simp only [pure_eq_ok, Except.ok.injEq] at h
        subst h
        refine ⟨?_, fun i hi => SymExpr.noConfusion hi⟩
        simp only [SymExpr.simplify, ihl.1, ihr.1, ok_bind]
        exact hsb
    | div =>
      simp only [simpBin] at h
      split_ifs at h with h1 h2 h3 h4
      · simp only [pure_eq_ok, Except.ok.injEq] at h
        subst h
        exact ⟨rfl, fun i hi => SymExpr.noConfusion hi⟩
      · simp only [pure_eq_ok, Except.ok.injEq] at h
        subst h
        exact ihl
      · obtain ⟨a, _, h⟩ := bind_eq_ok h
        obtain ⟨b, _, h⟩ := bind_eq_ok h
        simp only [pure_eq_ok, Except.ok.injEq] at h
        subst h
        exact ⟨rfl, fun i hi => SymExpr.noConfusion hi⟩
      · simp only [pure_eq_ok, Except.ok.injEq] at h
        subst h
        refine ⟨?_, fun i hi => SymExpr.noConfusion hi⟩
        simp only [SymExpr.simplify, ihl.1, ihr.1, ok_bind]
        exact hsb
    | pow =>
      simp only [simpBin] at h
      split_ifs at h with h1 h2 h3 h4 h5
      · simp only [pure_eq_ok, Except.ok.injEq] at h
        subst h
        exact ⟨rfl, fun i hi => SymExpr.noConfusion hi⟩
      · simp only [pure_eq_ok, Except.ok.injEq] at h
        subst h
        exact ihl
      · simp only [pure_eq_ok, Except.ok.injEq] at h
        subst h
        exact ⟨rfl, fun i hi => SymExpr.noConfusion hi⟩
      · simp only [pure_eq_ok, Except.ok.injEq] at h
        subst h
        exact ⟨rfl, fun i hi => SymExpr.noConfusion hi⟩
      · obtain ⟨a, _, h⟩ := bind_eq_ok h
        obtain ⟨b, _, h⟩ := bind_eq_ok h
        simp only [pure_eq_ok, Except.ok.injEq] at h
        subst h
        exact ⟨rfl, fun i hi => SymExpr.noConfusion hi⟩
      · simp only [pure_eq_ok, Except.ok.injEq] at h
        subst h
        refine ⟨?_, fun i hi => SymExpr.noConfusion hi⟩
        simp only [SymExpr.simplify, ihl.1, ihr.1, ok_bind]
        exact hsb
  | un op e0 =>
    simp only [SymExpr.noSub] at hn
    simp only [SymExpr.simplify] at h
    obtain ⟨so, hso, h⟩ := bind_eq_ok h
    have ihe := simplify_fix P e0 so hn hso
    cases op with
    | pos =>
      simp only [simpUn, pure_eq_ok, Except.ok.injEq] at h
      subst h
      exact ihe
    | neg =>
      by_cases hz : so.isZero = true
      · have hzero : simpUn P .neg e0 so = .ok (.num 0) := by
          simp [simpUn, hz]
        rw [hzero] at h
        simp only [Except.ok.injEq] at h
        subst h
        exact ⟨rfl, fun i hi => SymExpr.noConfusion hi⟩
      · have hz' : so.isZero = false := by simpa using hz
        cases so with
        | num v =>
          exact simpUn_neg_wild hz' (fun j hj => SymExpr.noConfusion hj)
            ihe.1 h
        | var m =>
          exact simpUn_neg_wild hz' (fun j hj => SymExpr.noConfusion hj)
            ihe.1 h
        | bin op2 l2 r2 =>
          exact simpUn_neg_wild hz' (fun j hj => SymExpr.noConfusion hj)
            ihe.1 h
        | fn nm as2 =>
          exact simpUn_neg_wild hz' (fun j hj => SymExpr.noConfusion hj)
            ihe.1 h
        | un op2 inner =>
          cases op2 with
          | neg =>
            simp only [simpUn] at h
            rw [if_neg hz] at h
            have h' : (pure inner : Except String SymExpr) = .ok r := h
            simp only [pure_eq_ok, Except.ok.injEq] at h'
            subst h'
            obtain ⟨hifix, hic, hiz, hinn⟩ := ihe.2 inner rfl
            exact ⟨hifix, fun i hi => absurd hi (hinn i)⟩
          | pos =>
            exact simpUn_neg_wild hz'
              (fun j hj => by
                injection hj with h1 h2
                exact absurd h1 (by decide))
              ihe.1 h
          | sin =>
            exact simpUn_neg_wild hz'
              (fun j hj => by
                injection hj with h1 h2
                exact absurd h1 (by decide))
              ihe.1 h
          | cos =>
            exact simpUn_neg_wild hz'
              (fun j hj => by
                injection hj with h1 h2
                exact absurd h1 (by decide))
              ihe.1 h
          | tan =>
            exact simpUn_neg_wild hz'
              (fun j hj => by
                injection hj with h1 h2
                exact absurd h1 (by decide))
              ihe.1 h
          | log =>
            exact simpUn_neg_wild hz'
              (fun j hj => by
                injection hj with h1 h2
                exact absurd h1 (by decide))
              ihe.1 h
          | ln =>
            exact simpUn_neg_wild hz'
              (fun j hj => by
                injection hj with h1 h2
                exact absurd h1 (by decide))
              ihe.1 h
          | sqrt =>
            exact simpUn_neg_wild hz'
              (fun j hj => by
                injection hj with h1 h2
                exact absurd h1 (by decide))
              ihe.1 h
          | abs =>
            exact simpUn_neg_wild hz'
              (fun j hj => by
                injection hj with h1 h2
                exact absurd h1 (by decide))
              ihe.1 h
    | sin =>
      simp only [simpUn] at h
      split_ifs at h with hc
      · obtain ⟨v, _, h⟩ := bind_eq_ok h
        simp only [pure_eq_ok, Except.ok.injEq] at h
        subst h
        exact ⟨rfl, fun i hi => SymExpr.noConfusion hi⟩
      · simp only [pure_eq_ok, Except.ok.injEq] at h
        subst h
        refine ⟨?_, ?_⟩
        · simp only [SymExpr.simplify, ihe.1, ok_bind, simpUn]
          rw [if_neg hc]
          rfl
        · intro i hi
          injection hi with h1 h2
          exact absurd h1 (by decide)
    | cos =>
      simp only [simpUn] at h
      split_ifs at h with hc
      · obtain ⟨v, _, h⟩ := bind_eq_ok h
        simp only [pure_eq_ok, Except.ok.injEq] at h
        subst h
        exact ⟨rfl, fun i hi => SymExpr.noConfusion hi⟩
      · simp only [pure_eq_ok, Except.ok.injEq] at h
        subst h
        refine ⟨?_, ?_⟩
        · simp only [SymExpr.simplify, ihe.1, ok_bind, simpUn]
          rw [if_neg hc]
          rfl
        · intro i hi
          injection hi with h1 h2
          exact absurd h1 (by decide)
    | tan =>
      simp only [simpUn] at h
      split_ifs at h with hc
      · obtain ⟨v, _, h⟩ := bind_eq_ok h
        simp only [pure_eq_ok, Except.ok.injEq] at h
        subst h
        exact ⟨rfl, fun i hi => SymExpr.noConfusion hi⟩
      · simp only [pure_eq_ok, Except.ok.injEq] at h
        subst h
        refine ⟨?_, ?_⟩
        · simp only [SymExpr.simplify, ihe.1, ok_bind, simpUn]
          rw [if_neg hc]
          rfl
        · intro i hi
          injection hi with h1 h2
          exact absurd h1 (by decide)
    | log =>
      simp only [simpUn] at h
      split_ifs at h with hc
      · obtain ⟨v, _, h⟩ := bind_eq_ok h
        simp only [pure_eq_ok, Except.ok.injEq] at h
        subst h
        exact ⟨rfl, fun i hi => SymExpr.noConfusion hi⟩
      · simp only [pure_eq_ok, Except.ok.injEq] at h
        subst h
        refine ⟨?_, ?_⟩
        · simp only [SymExpr.simplify, ihe.1, ok_bind, simpUn]
          rw [if_neg hc]
          rfl
        · intro i hi
          injection hi with h1 h2
          exact absurd h1 (by decide)
    | ln =>
      simp only [simpUn] at h
      split_ifs at h with hc
      · obtain ⟨v, _, h⟩ := bind_eq_ok h
        simp only [pure_eq_ok, Except.ok.injEq] at h
        subst h
        exact ⟨rfl, fun i hi => SymExpr.noConfusion hi⟩
      · simp only [pure_eq_ok, Except.ok.injEq] at h
        subst h
        refine ⟨?_, ?_⟩
        · simp only [SymExpr.simplify, ihe.1, ok_bind, simpUn]
          rw [if_neg hc]
          rfl
        · intro i hi
          injection hi with h1 h2
          exact absurd h1 (by decide)
    | sqrt =>
      simp only [simpUn] at h
      split_ifs at h with hc
      · obtain ⟨v, _, h⟩ := bind_eq_ok h
        simp only [pure_eq_ok, Except.ok.injEq] at h
        subst h
        exact ⟨rfl, fun i hi => SymExpr.noConfusion hi⟩
      · simp only [pure_eq_ok, Except.ok.injEq] at h
        subst h
        refine ⟨?_, ?_⟩
        · simp only [SymExpr.simplify, ihe.1, ok_bind, simpUn]
          rw [if_neg hc]
          rfl
        · intro i hi
          injection hi with h1 h2
          exact absurd h1 (by decide)
    | abs =>
      simp only [simpUn] at h
      split_ifs at h with hc
      · obtain ⟨v, _, h⟩ := bind_eq_ok h
        simp only [pure_eq_ok, Except.ok.injEq] at h
        subst h
        exact ⟨rfl, fun i hi => SymExpr.noConfusion hi⟩
      · simp only [pure_eq_ok, Except.ok.injEq] at h
        subst h
        refine ⟨?_, ?_⟩
        · simp only [SymExpr.simplify, ihe.1, ok_bind, simpUn]
          rw [if_neg hc]
          rfl
        · intro i hi
          injection hi with h1 h2
          exact absurd h1 (by decide)
  | fn name args =>
    simp only [SymExpr.noSub] at hn
    simp only [SymExpr.simplify] at h
    obtain ⟨sargs, ha, h⟩ := bind_eq_ok h
    have iha : SymExpr.simplifyArgs P sargs = .ok sargs :=
      simplifyArgs_fix P args sargs hn ha
    split_ifs at h with hconst
    · obtain ⟨v, _, h⟩ := bind_eq_ok h
      simp only [pure_eq_ok, Except.ok.injEq] at h
      subst h
      exact ⟨rfl, fun i hi => SymExpr.noConfusion hi⟩
    · simp only [pure_eq_ok, Except.ok.injEq] at h
      subst h
      refine ⟨?_, fun i hi => SymExpr.noConfusion hi⟩
      simp only [SymExpr.simplify, iha, ok_bind]
      rw [if_neg hconst]
      rfl

theorem simplifyArgs_fix (P : Prims) (as rs : List SymExpr)
    (hn : SymExpr.noSubArgs as = true) (h : SymExpr.simplifyArgs P as = .ok rs) :
    SymExpr.simplifyArgs P rs = .ok rs := by
  cases as with
  | nil =>
    simp only [SymExpr.simplifyArgs, pure_eq_ok, Except.ok.injEq] at h
    subst h
    rfl
  | cons a as' =>
    simp only [SymExpr.noSubArgs, Bool.and_eq_true] at hn
    simp only [SymExpr.simplifyArgs] at h
    obtain ⟨sa, hsa, h⟩ := bind_eq_ok h
    obtain ⟨sas, hsas, h⟩ := bind_eq_ok h
    simp only [pure_eq_ok, Except.ok.injEq] at h
    subst h
    simp only [SymExpr.simplifyArgs, (simplify_fix P a sa hn.1 hsa).1, ok_bind,
      simplifyArgs_fix P as' sas hn.2 hsas]
    rfl

end

/-- C1 (amended): simplify is idempotent on every expression containing no
`SUBTRACT` node (unary `NEGATIVE` nodes are fine): if `e.simplify = r` then
`r.simplify = r`.  With `SUBTRACT` it can fail to be: the zero-left
`SUBTRACT` rule produces a `NEGATIVE` node wrapping a constant
(`simplify(0 - 5) = -(5)`), which a second pass folds further to the
number `-5`. -/
theorem simplify_idempotent_noSub (P : Prims) (e r : SymExpr)
    (hn : e.noSub = true) (h : e.simplify P = .ok r) :
    r.simplify P = .ok r :=
  (simplify_fix P e r hn h).1

/-- C1 witness: `-(x) * 1` (a `NEGATIVE`-containing, `SUBTRACT`-free tree)
simplifies to `-(x)`, which simplifies to itself. -/
theorem simplify_idempotent_noSub_witness :
    (SymExpr.bin .mul (.un .neg (.var "x")) (.num 1)).noSub = true
    ∧ SymExpr.simplify ratPrims (.bin .mul (.un .neg (.var "x")) (.num 1)) =
        .ok (.un .neg (.var "x"))
    ∧ SymExpr.simplify ratPrims (.un .neg (.var "x")) =
        .ok (.un .neg (.var "x")) :=
  ⟨rfl, rfl,
   simplify_idempotent_noSub ratPrims
     (.bin .mul (.un .neg (.var "x")) (.num 1)) (.un .neg (.var "x")) rfl rfl⟩

/-! ## Lexer lemmas

`readNumber` and `readIdentifier` stop where they stop regardless of what
follows the stopping character, and the token stream is independent of the
fuel once the fuel exceeds the input length. -/

theorem digSpan_le (cs : List Char) : digSpan cs ≤ cs.length := by
  induction cs with
  | nil => simp [digSpan]
  | cons c cs ih =>
    simp only [digSpan, List.length_cons]
    split_ifs <;> omega

theorem identSpan_le (cs : List Char) : identSpan cs ≤ cs.length := by
  induction cs with
  | nil => simp [identSpan]
  | cons c cs ih =>
    simp only [identSpan, List.length_cons]
    split_ifs <;> omega

theorem digSpan_extend : ∀ (xs : List Char) {c : Char},
    digSpan (xs ++ [c]) = xs.length → ∀ (ys : List Char),
    digSpan (xs ++ c :: ys) = xs.length
  | [], c, h, ys => by
    simp only [List.nil_append, List.length_nil, List.append_eq, digSpan] at h ⊢
    by_cases hx : c.isDigit = true
    · rw [if_pos hx] at h
      omega
    · rw [if_neg hx]
  | x :: xs, c, h, ys => by
    simp only [List.cons_append, List.length_cons, List.append_eq, digSpan] at h ⊢
    by_cases hx : x.isDigit = true
    · rw [if_pos hx] at h ⊢
      have h2 : digSpan (xs ++ [c]) = xs.length := by omega
      have := digSpan_extend xs h2 ys
      omega
    · rw [if_neg hx] at h
      omega

theorem expSpan_extend : ∀ (xs : List Char) {c : Char},
    expSpan (xs ++ [c]) = xs.length → ∀ (ys : List Char),
    expSpan (xs ++ c :: ys) = xs.length
  | [], c, h, ys => by
    simp only [List.nil_append, List.length_nil, List.append_eq, expSpan] at h ⊢
    by_cases hx : (c = '+' ∨ c = '-')
    · rw [if_pos hx] at h
      omega
    · rw [if_neg hx] at h ⊢
      have h2 : digSpan (([] : List Char) ++ [c]) = List.length ([] : List Char) := h
      simpa using digSpan_extend [] h2 ys
  | x :: xs, c, h, ys => by
    simp only [List.cons_append, List.length_cons, List.append_eq, expSpan] at h ⊢
    by_cases hx : (x = '+' ∨ x = '-')
    · rw [if_pos hx] at h ⊢
      have h2 : digSpan (xs ++ [c]) = xs.length := by omega
      have := digSpan_extend xs h2 ys
      omega
    · rw [if_neg hx] at h ⊢
      have h2 : digSpan ((x :: xs) ++ [c]) = (x :: xs).length := by
        simpa using h
      simpa using digSpan_extend (x :: xs) h2 ys

theorem numSpan_extend : ∀ (hd : Bool) (xs : List Char) {c : Char},
    numSpan hd (xs ++ [c]) = xs.length → ∀ (ys : List Char),
    numSpan hd (xs ++ c :: ys) = xs.length
  | hd, [], c, h, ys => by
    simp only [List.nil_append, List.length_nil, List.append_eq, numSpan] at h ⊢
    by_cases h1 : c.isDigit = true
    · rw [if_pos h1] at h
      omega
    · rw [if_neg h1] at h ⊢
      by_cases h2 : (c = '.' && !hd) = true
      · rw [if_pos h2] at h
        omega
      · rw [if_neg h2] at h ⊢
        by_cases h3 : (c = 'e' ∨ c = 'E')
        · rw [if_pos h3] at h
          simp [expSpan, digSpan] at h
        · rw [if_neg h3]
  | hd, x :: xs, c, h, ys => by
    simp only [List.cons_append, List.length_cons, List.append_eq, numSpan] at h ⊢
    by_cases h1 : x.isDigit = true
    · rw [if_pos h1] at h ⊢
      have h0 : numSpan hd (xs ++ [c]) = xs.length := by omega
      have := numSpan_extend hd xs h0 ys
      omega
    · rw [if_neg h1] at h ⊢
      by_cases h2 : (x = '.' && !hd) = true
      · rw [if_pos h2] at h ⊢
        have h0 : numSpan true (xs ++ [c]) = xs.length := by omega
        have := numSpan_extend true xs h0 ys
        omega
      · rw [if_neg h2] at h ⊢
        by_cases h3 : (x = 'e' ∨ x = 'E')
        · rw [if_pos h3] at h ⊢
          have h0 : expSpan (xs ++ [c]) = xs.length := by omega
          have := expSpan_extend xs h0 ys
          omega
        · rw [if_neg h3] at h
          omega

theorem identSpan_append : ∀ {xs : List Char}, identSpan xs = xs.length →
    ∀ {ys : List Char}, identStop ys = true →
    identSpan (xs ++ ys) = xs.length
  | [], _, ys, hy => by
    cases ys with
    | nil => rfl
    | cons y ys =>
      simp only [identStop, Bool.not_eq_true'] at hy
      simp [identSpan, hy]
  | x :: xs, h, ys, hy => by
    simp only [identSpan, List.length_cons, List.cons_append, List.append_eq] at h ⊢
    by_cases h1 : (x.isAlphanum || x = '_') = true
    · rw [if_pos h1] at h ⊢
      have h0 : identSpan xs = xs.length := by omega
      have := identSpan_append h0 hy
      omega
    · rw [if_neg h1] at h
      omega

theorem identSpan_take (cs : List Char) :
    identSpan (cs.take (identSpan cs)) = identSpan cs := by
  induction cs with
  | nil => rfl
  | cons c cs ih =>
    by_cases h1 : (c.isAlphanum || c = '_') = true
    · have hs : identSpan (c :: cs) = 1 + identSpan cs := by
        simp [identSpan, h1]
      rw [hs]
      have ht : (c :: cs).take (1 + identSpan cs) = c :: cs.take (identSpan cs) := by
        simp [List.take_succ_cons, Nat.add_comm]
      rw [ht]
      have hs2 : identSpan (c :: cs.take (identSpan cs)) =
          1 + identSpan (cs.take (identSpan cs)) := by
        simp [identSpan, h1]
      rw [hs2, ih]
    · have hs : identSpan (c :: cs) = 0 := by
        simp [identSpan, h1]
      rw [hs]
      rfl

theorem numSpan_pos {c : Char} {cs : List Char}
    (h : (c.isDigit || c = '.') = true) :
    1 ≤ numSpan false (c :: cs) := by
  simp only [Bool.or_eq_true, decide_eq_true_eq] at h
  by_cases h1 : c.isDigit = true
  · simp only [numSpan, if_pos h1]
    omega
  · rcases h with h | h
    · exact absurd h h1
    · subst h
      have he : numSpan false ('.' :: cs) = 1 + numSpan true cs := by
        simp only [numSpan]
        rw [if_neg (by decide), if_pos (by decide)]
      omega

theorem identSpan_pos {c : Char} {cs : List Char}
    (h : (c.isAlpha || c = '_') = true) :
    1 ≤ identSpan (c :: cs) := by
  have hc : (c.isAlphanum || c = '_') = true := by
    simp only [Bool.or_eq_true] at h ⊢
    rcases h with h | h
    · exact Or.inl (by simp [Char.isAlphanum, h])
    · exact Or.inr h
  simp only [identSpan, hc, if_true]
  omega

theorem lexAll_ws {f : Nat} {c : Char} {cs : List Char} (h : c.isWhitespace = true) :
    lexAll (f + 1) (c :: cs) = lexAll f cs := by
  simp only [lexAll, h, if_true]

theorem lexAll_num {f : Nat} {c : Char} {cs : List Char}
    (h1 : c.isWhitespace = false) (h2 : (c.isDigit || c = '.') = true) :
    lexAll (f + 1) (c :: cs) =
      .number ⟨(c :: cs).take (numSpan false (c :: cs))⟩ ::
        lexAll f ((c :: cs).drop (numSpan false (c :: cs))) := by
  simp only [lexAll, h1, h2, Bool.false_eq_true, if_false, if_true]

theorem lexAll_ident {f : Nat} {c : Char} {cs : List Char}
    (h1 : c.isWhitespace = false) (h2 : (c.isDigit || c = '.') = false)
    (h3 : (c.isAlpha || c = '_') = true) :
    lexAll (f + 1) (c :: cs) =
      (if isFunctionName ⟨(c :: cs).take (identSpan (c :: cs))⟩
       then Tok.func ⟨(c :: cs).take (identSpan (c :: cs))⟩
       else Tok.var ⟨(c :: cs).take (identSpan (c :: cs))⟩) ::
        lexAll f ((c :: cs).drop (identSpan (c :: cs))) := by
  simp only [lexAll, h1, h2, h3, Bool.false_eq_true, if_false, if_true]

theorem lexAll_plus (f : Nat) (cs : List Char) :
    lexAll (f + 1) ('+' :: cs) = .plus :: lexAll f cs := rfl

theorem lexAll_minus (f : Nat) (cs : List Char) :
    lexAll (f + 1) ('-' :: cs) = .minus :: lexAll f cs := rfl

theorem lexAll_star (f : Nat) (cs : List Char) :
    lexAll (f + 1) ('*' :: cs) = .multiply :: lexAll f cs := rfl

theorem lexAll_slash (f : Nat) (cs : List Char) :
    lexAll (f + 1) ('/' :: cs) = .divide :: lexAll f cs := rfl

theorem lexAll_caret (f : Nat) (cs : List Char) :
    lexAll (f + 1) ('^' :: cs) = .power :: lexAll f cs := rfl

theorem lexAll_lparen (f : Nat) (cs : List Char) :
    lexAll (f + 1) ('(' :: cs) = .lparen :: lexAll f cs := rfl

theorem lexAll_rparen (f : Nat) (cs : List Char) :
    lexAll (f + 1) (')' :: cs) = .rparen :: lexAll f cs := rfl

theorem lexAll_comma (f : Nat) (cs : List Char) :
    lexAll (f + 1) (',' :: cs) = .comma :: lexAll f cs := rfl

theorem lexAll_invalid {c : Char} (f : Nat) (cs : List Char)
    (h1 : c.isWhitespace = false) (h2 : (c.isDigit || c = '.') = false)
    (h3 : (c.isAlpha || c = '_') = false) (h4 : ¬c = '+') (h5 : ¬c = '-')
    (h6 : ¬c = '*') (h7 : ¬c = '/') (h8 : ¬c = '^') (h9 : ¬c = '(')
    (h10 : ¬c = ')') (h11 : ¬c = ',') :
    lexAll (f + 1) (c :: cs) = .invalid (String.singleton c) :: lexAll f cs := by
  simp only [lexAll, h1, h2, h3, Bool.false_eq_true, if_false]
  rw [if_neg h4, if_neg h5, if_neg h6, if_neg h7, if_neg h8, if_neg h9,
    if_neg h10, if_neg h11]

theorem lexAll_fuel_eq : ∀ (n : Nat) (cs : List Char), cs.length ≤ n →
    ∀ {f g : Nat}, cs.length < f → cs.length < g → lexAll f cs = lexAll g cs := by
  intro n
  induction n with
  | zero =>
    intro cs h f g hf hg
    have : cs = [] := List.length_eq_zero.mp (by omega)
    subst this
    cases f with
    | zero => omega
    | succ f =>
      cases g with
      | zero => omega
      | succ g => rfl
  | succ n ih =>
    intro cs h f g hf hg
    cases cs with
    | nil =>
      cases f with
      | zero => omega
      | succ f =>
        cases g with
        | zero => omega
        | succ g => rfl
    | cons c cs' =>
      cases f with
      | zero => omega
      | succ f =>
        cases g with
        | zero => omega
        | succ g =>
          simp only [List.length_cons] at h hf hg
          by_cases hw : c.isWhitespace = true
          · rw [lexAll_ws hw, lexAll_ws hw]
            exact ih cs' (by omega) (by omega) (by omega)
          · replace hw : c.isWhitespace = false := by
              simpa using hw
            by_cases hn : (c.isDigit || c = '.') = true
            · rw [lexAll_num hw hn, lexAll_num hw hn]
              have hk : 1 ≤ numSpan false (c :: cs') := numSpan_pos hn
              have hlen : (List.drop (numSpan false (c :: cs')) (c :: cs')).length
                  = (cs'.length + 1) - numSpan false (c :: cs') := by
                rw [List.length_drop, List.length_cons]
              refine congrArg _ (ih _ ?_ ?_ ?_) <;> rw [hlen] <;> omega
            · replace hn : (c.isDigit || c = '.') = false := by
                simpa using hn
              by_cases hi : (c.isAlpha || c = '_') = true
              · rw [lexAll_ident hw hn hi, lexAll_ident hw hn hi]
                have hk : 1 ≤ identSpan (c :: cs') := identSpan_pos hi
                have hlen : (List.drop (identSpan (c :: cs')) (c :: cs')).length
                    = (cs'.length + 1) - identSpan (c :: cs') := by
                  rw [List.length_drop, List.length_cons]
                refine congrArg _ (ih _ ?_ ?_ ?_) <;> rw [hlen] <;> omega
              · replace hi : (c.isAlpha || c = '_') = false := by
                  simpa using hi
                have htail := ih cs' (by omega) (f := f) (g := g) (by omega) (by omega)
                by_cases h4 : c = '+'
                · subst h4
                  rw [lexAll_plus, lexAll_plus, htail]
                by_cases h5 : c = '-'
                · subst h5
                  rw [lexAll_minus, lexAll_minus, htail]
                by_cases h6 : c = '*'
                · subst h6
                  rw [lexAll_star, lexAll_star, htail]
                by_cases h7 : c = '/'
                · subst h7
                  rw [lexAll_slash, lexAll_slash, htail]
                by_cases h8 : c = '^'
                · subst h8
                  rw [lexAll_caret, lexAll_caret, htail]
                by_cases h9 : c = '('
                · subst h9
                  rw [lexAll_lparen, lexAll_lparen, htail]
                by_cases h10 : c = ')'
                · subst h10
                  rw [lexAll_rparen, lexAll_rparen, htail]
                by_cases h11 : c = ','
                · subst h11
                  rw [lexAll_comma, lexAll_comma, htail]
                rw [lexAll_invalid f cs' hw hn hi h4 h5 h6 h7 h8 h9 h10 h11,
                  lexAll_invalid g cs' hw hn hi h4 h5 h6 h7 h8 h9 h10 h11, htail]

theorem lexer_fuel {f : Nat} {cs : List Char} (h : cs.length < f) :
    lexAll f cs = lexer cs :=
  lexAll_fuel_eq cs.length cs (Nat.le_refl _) h (Nat.lt_succ_self _)

theorem lexer_space (cs : List Char) : lexer (' ' :: cs) = lexer cs := rfl

theorem lexer_plus (cs : List Char) : lexer ('+' :: cs) = .plus :: lexer cs := rfl

theorem lexer_minus (cs : List Char) : lexer ('-' :: cs) = .minus :: lexer cs := rfl

theorem lexer_star (cs : List Char) : lexer ('*' :: cs) = .multiply :: lexer cs := rfl

theorem lexer_slash (cs : List Char) : lexer ('/' :: cs) = .divide :: lexer cs := rfl

theorem lexer_caret (cs : List Char) : lexer ('^' :: cs) = .power :: lexer cs := rfl

theorem lexer_lparen (cs : List Char) : lexer ('(' :: cs) = .lparen :: lexer cs := rfl

theorem lexer_rparen (cs : List Char) : lexer (')' :: cs) = .rparen :: lexer cs := rfl

theorem lexer_comma (cs : List Char) : lexer (',' :: cs) = .comma :: lexer cs := rfl

/-- An identifier followed by a non-identifier character lexes to its single
token, leaving the rest to the lexer. -/
theorem lexer_ident (s : String) (hs : identOk s = true) (rest : List Char)
    (hr : identStop rest = true) :
    lexer (s.data ++ rest) =
      (if isFunctionName s then .func s else .var s) :: lexer rest := by
  obtain ⟨c, cs, hdata⟩ : ∃ c cs, s.data = c :: cs := by
    cases hd : s.data with
    | nil => simp [identOk, hd] at hs
    | cons c cs => exact ⟨c, cs, rfl⟩
  simp only [identOk, hdata, Bool.and_eq_true, Bool.not_eq_true', beq_iff_eq,
    List.length_cons] at hs
  obtain ⟨⟨⟨hw, hn⟩, hi⟩, hspan⟩ := hs
  have hspan2 : identSpan ((c :: cs) ++ rest) = cs.length + 1 := by
    have := @identSpan_append (c :: cs) (by simpa using hspan) rest hr
    simpa using this
  have hsplit : s.data ++ rest = c :: (cs ++ rest) := by rw [hdata]; rfl
  rw [hsplit]
  have hfuel : (c :: (cs ++ rest)).length = (cs ++ rest).length + 1 := rfl
  unfold lexer
  rw [hfuel, lexAll_ident hw hn hi]
  have htake : (c :: (cs ++ rest)).take (identSpan (c :: (cs ++ rest))) = c :: cs := by
    have h1 : identSpan (c :: (cs ++ rest)) = (c :: cs).length := by
      simpa using hspan2
    rw [h1]
    exact List.take_left (c :: cs) rest
  have hdrop : (c :: (cs ++ rest)).drop (identSpan (c :: (cs ++ rest))) = rest := by
    have h1 : identSpan (c :: (cs ++ rest)) = (c :: cs).length := by
      simpa using hspan2
    rw [h1]
    exact List.drop_left (c :: cs) rest
  rw [htake, hdrop]
  have hmk : (⟨c :: cs⟩ : String) = s := by rw [← hdata]
  rw [hmk]
  have hlen : rest.length < (cs ++ rest).length + 1 := by
    simp only [List.length_append]
    omega
  rw [lexer_fuel hlen]
  rfl

/-- A well-behaved printed number followed by a separator (or nothing) lexes
to its single token. -/
theorem lexer_number (v : Rat) (hv : numTokOk v = true) (rest : List Char)
    (hr : sepHead rest = true) :
    lexer ((fmtRat v).data ++ rest) = .number (fmtRat v) :: lexer rest := by
  obtain ⟨c, cs, hdata⟩ : ∃ c cs, (fmtRat v).data = c :: cs := by
    cases hd : (fmtRat v).data with
    | nil => simp [numTokOk, hd] at hv
    | cons c cs => exact ⟨c, cs, rfl⟩
  simp only [numTokOk, hdata, Bool.and_eq_true, Bool.not_eq_true', beq_iff_eq,
    List.length_cons] at hv
  obtain ⟨⟨⟨⟨⟨⟨hw, hstart⟩, hspan0⟩, hsp1⟩, hsp2⟩, hsp3⟩, hstod⟩ := hv
  have hspan : numSpan false ((c :: cs) ++ rest) = cs.length + 1 := by
    cases rest with
    | nil => simpa using hspan0
    | cons c' rest' =>
      simp only [sepHead, Bool.or_eq_true, decide_eq_true_eq] at hr
      rcases hr with (rfl | rfl) | rfl
      · simpa using numSpan_extend false (c :: cs) (by simpa using hsp1) rest'
      · simpa using numSpan_extend false (c :: cs) (by simpa using hsp2) rest'
      · simpa using numSpan_extend false (c :: cs) (by simpa using hsp3) rest'
  have hsplit : (fmtRat v).data ++ rest = c :: (cs ++ rest) := by rw [hdata]; rfl
  rw [hsplit]
  unfold lexer
  have hfuel : (c :: (cs ++ rest)).length = (cs ++ rest).length + 1 := rfl
  rw [hfuel, lexAll_num hw hstart]
  have h1 : numSpan false (c :: (cs ++ rest)) = (c :: cs).length := by
    simpa using hspan
  have htake : (c :: (cs ++ rest)).take (numSpan false (c :: (cs ++ rest))) = c :: cs := by
    rw [h1]
    exact List.take_left (c :: cs) rest
  have hdrop : (c :: (cs ++ rest)).drop (numSpan false (c :: (cs ++ rest))) = rest := by
    rw [h1]
    exact List.drop_left (c :: cs) rest
  rw [htake, hdrop]
  have hmk : (⟨c :: cs⟩ : String) = fmtRat v := by rw [← hdata]
  rw [hmk]
  have hlen : rest.length < (cs ++ rest).length + 1 := by
    simp only [List.length_append]
    omega
  rw [lexer_fuel hlen]
  rfl

@[simp] theorem data_lit_lparen : ("(" : String).data = ['('] := rfl

@[simp] theorem data_lit_rparen : (")" : String).data = [')'] := rfl

@[simp] theorem data_lit_space : (" " : String).data = [' '] := rfl

@[simp] theorem data_lit_commasp : (", " : String).data = [',', ' '] := rfl

@[simp] theorem data_lit_plus : ("+" : String).data = ['+'] := rfl

@[simp] theorem data_lit_minus : ("-" : String).data = ['-'] := rfl

@[simp] theorem data_lit_star : ("*" : String).data = ['*'] := rfl

@[simp] theorem data_lit_slash : ("/" : String).data = ['/'] := rfl

@[simp] theorem data_lit_caret : ("^" : String).data = ['^'] := rfl

theorem sepHead_identStop {rest : List Char} (h : sepHead rest = true) :
    identStop rest = true := by
  cases rest with
  | nil => rfl
  | cons c cs =>
    simp only [sepHead, Bool.or_eq_true, decide_eq_true_eq] at h
    rcases h with (rfl | rfl) | rfl <;> rfl

theorem isFunctionName_identOk {s : String} (h : isFunctionName s = true) :
    identOk s = true := by
  simp only [isFunctionName, Bool.or_eq_true, decide_eq_true_eq] at h
  rcases h with (((((rfl | rfl) | rfl) | rfl) | rfl) | rfl) | rfl <;> decide

mutual

theorem lexer_toText (t : ASTN) (hg : t.goodT = true) (hn : t.numsOk = true) :
    ∀ (rest : List Char), sepHead rest = true →
      lexer ((ASTN.toText t).data ++ rest) = t.ptoks ++ lexer rest := by
  cases t with
  | num v =>
    intro rest hrest
    exact lexer_number v hn rest hrest
  | var n =>
    intro rest hrest
    simp only [ASTN.goodT, Bool.and_eq_true, Bool.not_eq_true'] at hg
    have := lexer_ident n hg.1 rest (sepHead_identStop hrest)
    rw [hg.2] at this
    simpa [ASTN.toText, ASTN.ptoks] using this
  | bin op l r' =>
    intro rest hrest
    simp only [ASTN.goodT, Bool.and_eq_true] at hg
    simp only [ASTN.numsOk, Bool.and_eq_true] at hn
    have hl : ∀ (X : List Char),
        lexer ((ASTN.toText l).data ++ ' ' :: X) = l.ptoks ++ lexer (' ' :: X) :=
      fun X => lexer_toText l hg.1 hn.1 (' ' :: X) rfl
    have hr : ∀ (X : List Char),
        lexer ((ASTN.toText r').data ++ ')' :: X) =
          r'.ptoks ++ lexer (')' :: X) :=
      fun X => lexer_toText r' hg.2 hn.2 (')' :: X) rfl
    cases op <;>
      simp only [ASTN.toText, ASTN.ptoks, BinOp.symbol, BinOp.tok,
        String.data_append, data_lit_lparen, data_lit_rparen, data_lit_space,
        data_lit_plus, data_lit_minus, data_lit_star, data_lit_slash,
        data_lit_caret, List.append_assoc, List.cons_append,
        List.singleton_append, List.nil_append] <;>
      rw [lexer_lparen, hl, lexer_space] <;>
      [rw [lexer_plus]; rw [lexer_minus]; rw [lexer_star]; rw [lexer_slash];
       rw [lexer_caret]] <;>
      rw [lexer_space, hr, lexer_rparen]
  | un op e =>
    intro rest hrest
    simp only [ASTN.goodT, Bool.and_eq_true, Bool.or_eq_true, beq_iff_eq] at hg
    simp only [ASTN.numsOk] at hn
    have he := lexer_toText e hg.2 hn
    rcases hg.1 with rfl | rfl
    · simp only [ASTN.toText, ASTN.ptoks, String.data_append, data_lit_plus,
        List.cons_append, List.singleton_append, List.append_assoc,
        List.nil_append]
      rw [lexer_plus, he rest hrest]
    · simp only [ASTN.toText, ASTN.ptoks, String.data_append, data_lit_minus,
        List.cons_append, List.singleton_append, List.append_assoc,
        List.nil_append]
      rw [lexer_minus, he rest hrest]
  | fn name args =>
    intro rest hrest
    simp only [ASTN.goodT, Bool.and_eq_true] at hg
    simp only [ASTN.numsOk] at hn
    have hargs := lexer_argsText args hg.2 hn
    simp only [ASTN.toText, ASTN.ptoks, String.data_append, data_lit_lparen,
      data_lit_rparen, List.append_assoc, List.cons_append,
      List.singleton_append, List.nil_append]
    have hident := lexer_ident name (isFunctionName_identOk hg.1)
      ('(' :: ((ASTN.argsText args).data ++ ')' :: rest)) rfl
    rw [hident, hg.1, if_pos rfl, lexer_lparen, hargs rest]

theorem lexer_argsText (as : List ASTN) (hg : ASTN.goodArgs as = true)
    (hn : ASTN.numsArgsOk as = true) :
    ∀ (rest : List Char),
      lexer ((ASTN.argsText as).data ++ ')' :: rest) =
        ASTN.ptoksArgs as ++ .rparen :: lexer rest := by
  match as with
  | [] =>
    intro rest
    simp only [ASTN.argsText, ASTN.ptoksArgs, List.nil_append]
    exact lexer_rparen rest
  | [a] =>
    intro rest
    simp only [ASTN.goodArgs, Bool.and_eq_true] at hg
    simp only [ASTN.numsArgsOk, Bool.and_eq_true] at hn
    simp only [ASTN.argsText, ASTN.ptoksArgs, ASTN.ptoksMore, List.append_nil]
    rw [lexer_toText a hg.1 hn.1 (')' :: rest) rfl, lexer_rparen]
  | a :: b :: as' =>
    intro rest
    simp only [ASTN.goodArgs, Bool.and_eq_true] at hg
    simp only [ASTN.numsArgsOk, Bool.and_eq_true] at hn
    have htail := lexer_argsText (b :: as')
      (by simp [ASTN.goodArgs, hg.2.1, hg.2.2])
      (by simp [ASTN.numsArgsOk, hn.2.1, hn.2.2])
    simp only [ASTN.argsText, ASTN.ptoksArgs, ASTN.ptoksMore,
      String.data_append, data_lit_commasp, List.append_assoc,
      List.cons_append, List.singleton_append, List.nil_append]
    rw [lexer_toText a hg.1 hn.1 (',' :: (' ' ::
        ((ASTN.argsText (b :: as')).data ++ ')' :: rest))) rfl,
      lexer_comma, lexer_space, htail rest]
    simp only [ASTN.ptoksArgs, List.append_assoc, List.cons_append]

end

/-! ## The lexer emits only well-formed tokens -/

theorem identOk_take {c : Char} {cs : List Char}
    (hw : c.isWhitespace = false) (hd : (c.isDigit || c = '.') = false)
    (ha : (c.isAlpha || c = '_') = true) :
    identOk ⟨(c :: cs).take (identSpan (c :: cs))⟩ = true := by
  have hn1 : 1 ≤ identSpan (c :: cs) := identSpan_pos ha
  have hnle : identSpan (c :: cs) ≤ (c :: cs).length := identSpan_le _
  simp only [List.length_cons] at hnle
  obtain ⟨m, hm⟩ : ∃ m, identSpan (c :: cs) = m + 1 :=
    ⟨identSpan (c :: cs) - 1, by omega⟩
  have hspan := identSpan_take (c :: cs)
  rw [hm] at hspan ⊢
  have htake : (c :: cs).take (m + 1) = c :: cs.take m := rfl
  rw [htake] at hspan ⊢
  have hlen : (c :: cs.take m).length = m + 1 := by
    simp only [List.length_cons, List.length_take]
    omega
  simp only [identOk, hspan, hlen, hw, hd, ha, Bool.not_false, Bool.and_self,
    Bool.true_and, beq_self_eq_true]

theorem lexAll_wf : ∀ (f : Nat) (cs : List Char),
    (lexAll f cs).all wfTok = true := by
  intro f
  induction f with
  | zero => intro cs; rfl
  | succ f ih =>
    intro cs
    cases cs with
    | nil => rfl
    | cons c cs =>
      by_cases hw : c.isWhitespace = true
      · rw [lexAll_ws hw]
        exact ih cs
      · have hw' : c.isWhitespace = false := by
          simpa using hw
        by_cases hd : (c.isDigit || c = '.') = true
        · rw [lexAll_num hw' hd]
          simp only [List.all_cons, Bool.and_eq_true]
          exact ⟨rfl, ih _⟩
        · have hd' : (c.isDigit || c = '.') = false := by simpa using hd
          by_cases ha : (c.isAlpha || c = '_') = true
          · rw [lexAll_ident hw' hd' ha]
            simp only [List.all_cons, Bool.and_eq_true]
            refine ⟨?_, ih _⟩
            by_cases hf :
                isFunctionName ⟨(c :: cs).take (identSpan (c :: cs))⟩ = true
            · rw [if_pos hf]
              simpa [wfTok] using hf
            · rw [if_neg hf]
              simp only [wfTok, Bool.and_eq_true, Bool.not_eq_true']
              exact ⟨identOk_take hw' hd' ha, by simpa using hf⟩
          · have ha' : (c.isAlpha || c = '_') = false := by simpa using ha
            by_cases h4 : c = '+'
            · subst h4; rw [lexAll_plus]
              simp only [List.all_cons, Bool.and_eq_true]
              exact ⟨rfl, ih cs⟩
            · by_cases h5 : c = '-'
              · subst h5; rw [lexAll_minus]
                simp only [List.all_cons, Bool.and_eq_true]
                exact ⟨rfl, ih cs⟩
              · by_cases h6 : c = '*'
                · subst h6; rw [lexAll_star]
                  simp only [List.all_cons, Bool.and_eq_true]
                  exact ⟨rfl, ih cs⟩
                · by_cases h7 : c = '/'
                  · subst h7; rw [lexAll_slash]
                    simp only [List.all_cons, Bool.and_eq_true]
                    exact ⟨rfl, ih cs⟩
                  · by_cases h8 : c = '^'
                    · subst h8; rw [lexAll_caret]
                      simp only [List.all_cons, Bool.and_eq_true]
                      exact ⟨rfl, ih cs⟩
                    · by_cases h9 : c = '('
                      · subst h9; rw [lexAll_lparen]
                        simp only [List.all_cons, Bool.and_eq_true]
                        exact ⟨rfl, ih cs⟩
                      · by_cases h10 : c = ')'
                        · subst h10; rw [lexAll_rparen]
                          simp only [List.all_cons, Bool.and_eq_true]
                          exact ⟨rfl, ih cs⟩
                        · by_cases h11 : c = ','
                          · subst h11; rw [lexAll_comma]
                            simp only [List.all_cons, Bool.and_eq_true]
                            exact ⟨rfl, ih cs⟩
                          · rw [lexAll_invalid f cs hw' hd' ha' h4 h5 h6 h7
                              h8 h9 h10 h11]
                            simp only [List.all_cons, Bool.and_eq_true]
                            exact ⟨rfl, ih cs⟩

/-! ## Loop-stop and stop-predicate lemmas for the parser -/

theorem goodArgs_eq_all (as : List ASTN) :
    ASTN.goodArgs as = as.all ASTN.goodT := by
  induction as with
  | nil => rfl
  | cons a as ih => simp [ASTN.goodArgs, List.all_cons, ih]

theorem stopsTerm_stopsFactor {rest : List Tok} (h : stopsTerm rest = true) :
    stopsFactor rest = true := by
  cases rest with
  | nil => rfl
  | cons t rs =>
    simp only [stopsTerm, Bool.or_eq_true, beq_iff_eq] at h
    rcases h with rfl | rfl <;> rfl

theorem stopsFactor_headNotPow {rest : List Tok} (h : stopsFactor rest = true) :
    headNotPow rest = true := by
  cases rest with
  | nil => rfl
  | cons t rs =>
    simp only [stopsFactor, Bool.or_eq_true, beq_iff_eq] at h
    rcases h with ((rfl | rfl) | rfl) | rfl <;> rfl

theorem termLoop_stop (f : Nat) (left : ASTN) {rest : List Tok}
    (h : stopsTerm rest = true) :
    parseTermLoopF (f + 1) left rest = .ok (left, rest) := by
  cases rest with
  | nil => rfl
  | cons t rs =>
    simp only [stopsTerm, Bool.or_eq_true, beq_iff_eq] at h
    rcases h with rfl | rfl <;> rfl

theorem factorLoop_stop (f : Nat) (left : ASTN) {rest : List Tok}
    (h : stopsFactor rest = true) :
    parseFactorLoopF (f + 1) left rest = .ok (left, rest) := by
  cases rest with
  | nil => rfl
  | cons t rs =>
    simp only [stopsFactor, Bool.or_eq_true, beq_iff_eq] at h
    rcases h with ((rfl | rfl) | rfl) | rfl <;> rfl

/-! ## The parser only builds `goodT` trees from well-formed tokens -/

theorem parserWf : ∀ (fuel : Nat),
    (∀ toks t rest, toks.all wfTok = true →
        parseTermF fuel toks = .ok (t, rest) →
        t.goodT = true ∧ rest.all wfTok = true) ∧
    (∀ left toks t rest, left.goodT = true → toks.all wfTok = true →
        parseTermLoopF fuel left toks = .ok (t, rest) →
        t.goodT = true ∧ rest.all wfTok = true) ∧
    (∀ toks t rest, toks.all wfTok = true →
        parseFactorF fuel toks = .ok (t, rest) →
        t.goodT = true ∧ rest.all wfTok = true) ∧
    (∀ left toks t rest, left.goodT = true → toks.all wfTok = true →
        parseFactorLoopF fuel left toks = .ok (t, rest) →
        t.goodT = true ∧ rest.all wfTok = true) ∧
    (∀ toks t rest, toks.all wfTok = true →
        parsePowerF fuel toks = .ok (t, rest) →
        t.goodT = true ∧ rest.all wfTok = true) ∧
    (∀ toks t rest, toks.all wfTok = true →
        parsePrimaryF fuel toks = .ok (t, rest) →
        t.goodT = true ∧ rest.all wfTok = true) ∧
    (∀ name toks t rest, isFunctionName name = true → toks.all wfTok = true →
        parseFunctionF fuel name toks = .ok (t, rest) →
        t.goodT = true ∧ rest.all wfTok = true) ∧
    (∀ name acc toks t rest, isFunctionName name = true →
        ASTN.goodArgs acc = true → toks.all wfTok = true →
        parseArgsF fuel name acc toks = .ok (t, rest) →
        t.goodT = true ∧ rest.all wfTok = true) := by
  intro fuel
  induction fuel with
  | zero =>
    refine ⟨?_, ?_, ?_, ?_, ?_, ?_, ?_, ?_⟩ <;>
      (intros; rename_i h; exact Except.noConfusion h)
  | succ fuel ih =>
    obtain ⟨ihT, ihTL, ihF, ihFL, ihP, ihPr, ihFn, ihA⟩ := ih
    refine ⟨?_, ?_, ?_, ?_, ?_, ?_, ?_, ?_⟩
    · -- parseTermF
      intro toks t rest hw h
      simp only [parseTermF] at h
      obtain ⟨⟨l, rest₁⟩, h1, h2⟩ := bind_eq_ok h
      obtain ⟨hg1, hw1⟩ := ihF toks l rest₁ hw h1
      exact ihTL l rest₁ t rest hg1 hw1 h2
    · -- parseTermLoopF
      intro left toks t rest hgl hw h
      cases toks with
      | nil =>
        simp only [parseTermLoopF, pure_eq_ok, Except.ok.injEq,
          Prod.mk.injEq] at h
        obtain ⟨rfl, rfl⟩ := h
        exact ⟨hgl, hw⟩
      | cons tk rest₀ =>
        simp only [List.all_cons, Bool.and_eq_true] at hw
        cases tk
        case plus =>
          simp only [parseTermLoopF] at h
          obtain ⟨⟨r, rest'⟩, h1, h2⟩ := bind_eq_ok h
          obtain ⟨hgr, hw'⟩ := ihF rest₀ r rest' hw.2 h1
          exact ihTL (.bin .add left r) rest' t rest
            (by simp [ASTN.goodT, hgl, hgr]) hw' h2
        case minus =>
          simp only [parseTermLoopF] at h
          obtain ⟨⟨r, rest'⟩, h1, h2⟩ := bind_eq_ok h
          obtain ⟨hgr, hw'⟩ := ihF rest₀ r rest' hw.2 h1
          exact ihTL (.bin .sub left r) rest' t rest
            (by simp [ASTN.goodT, hgl, hgr]) hw' h2
        all_goals
          simp only [parseTermLoopF, pure_eq_ok, Except.ok.injEq,
            Prod.mk.injEq] at h
          obtain ⟨rfl, rfl⟩ := h
          exact ⟨hgl, by simp [List.all_cons, hw.1, hw.2]⟩
    · -- parseFactorF
      intro toks t rest hw h
      simp only [parseFactorF] at h
      obtain ⟨⟨l, rest₁⟩, h1, h2⟩ := bind_eq_ok h
      obtain ⟨hg1, hw1⟩ := ihP toks l rest₁ hw h1
      exact ihFL l rest₁ t rest hg1 hw1 h2
    · -- parseFactorLoopF
      intro left toks t rest hgl hw h
      cases toks with
      | nil =>
        simp only [parseFactorLoopF, pure_eq_ok, Except.ok.injEq,
          Prod.mk.injEq] at h
        obtain ⟨rfl, rfl⟩ := h
        exact ⟨hgl, hw⟩
      | cons tk rest₀ =>
        simp only [List.all_cons, Bool.and_eq_true] at hw
        cases tk
        case multiply =>
          simp only [parseFactorLoopF] at h
          obtain ⟨⟨r, rest'⟩, h1, h2⟩ := bind_eq_ok h
          obtain ⟨hgr, hw'⟩ := ihP rest₀ r rest' hw.2 h1
          exact ihFL (.bin .mul left r) rest' t rest
            (by simp [ASTN.goodT, hgl, hgr]) hw' h2
        case divide =>
          simp only [parseFactorLoopF] at h
          obtain ⟨⟨r, rest'⟩, h1, h2⟩ := bind_eq_ok h
          obtain ⟨hgr, hw'⟩ := ihP rest₀ r rest' hw.2 h1
          exact ihFL (.bin .div left r) rest' t rest
            (by simp [ASTN.goodT, hgl, hgr]) hw' h2
        case number s =>
          simp only [parseFactorLoopF] at h
          rw [if_pos (show canStartFactor (Tok.number s) = true from rfl)] at h
          obtain ⟨⟨r, rest'⟩, h1, h2⟩ := bind_eq_ok h
          obtain ⟨hgr, hw'⟩ := ihP (Tok.number s :: rest₀) r rest'
            (by simp [List.all_cons, hw.1, hw.2]) h1
          exact ihFL (.bin .mul left r) rest' t rest
            (by simp [ASTN.goodT, hgl, hgr]) hw' h2
        case var s =>
          simp only [parseFactorLoopF] at h
          rw [if_pos (show canStartFactor (Tok.var s) = true from rfl)] at h
          obtain ⟨⟨r, rest'⟩, h1, h2⟩ := bind_eq_ok h
          obtain ⟨hgr, hw'⟩ := ihP (Tok.var s :: rest₀) r rest'
            (by simp [List.all_cons, hw.1, hw.2]) h1
          exact ihFL (.bin .mul left r) rest' t rest
            (by simp [ASTN.goodT, hgl, hgr]) hw' h2
        case func s =>
          simp only [parseFactorLoopF] at h
          rw [if_pos (show canStartFactor (Tok.func s) = true from rfl)] at h
          obtain ⟨⟨r, rest'⟩, h1, h2⟩ := bind_eq_ok h
          obtain ⟨hgr, hw'⟩ := ihP (Tok.func s :: rest₀) r rest'
            (by simp [List.all_cons, hw.1, hw.2]) h1
          exact ihFL (.bin .mul left r) rest' t rest
            (by simp [ASTN.goodT, hgl, hgr]) hw' h2
        case lparen =>
          simp only [parseFactorLoopF] at h
          rw [if_pos (show canStartFactor Tok.lparen = true from rfl)] at h
          obtain ⟨⟨r, rest'⟩, h1, h2⟩ := bind_eq_ok h
          obtain ⟨hgr, hw'⟩ := ihP (Tok.lparen :: rest₀) r rest'
            (by simp [List.all_cons, hw.1, hw.2]) h1
          exact ihFL (.bin .mul left r) rest' t rest
            (by simp [ASTN.goodT, hgl, hgr]) hw' h2
        all_goals
          simp only [parseFactorLoopF] at h
          rw [if_neg (by simp [canStartFactor])] at h
          simp only [pure_eq_ok, Except.ok.injEq, Prod.mk.injEq] at h
          obtain ⟨rfl, rfl⟩ := h
          exact ⟨hgl, by simp [List.all_cons, hw.1, hw.2]⟩
    · -- parsePowerF
      intro toks t rest hw h
      simp only [parsePowerF] at h
      obtain ⟨⟨l, rest₁⟩, h1, h2⟩ := bind_eq_ok h
      obtain ⟨hgl, hw1⟩ := ihPr toks l rest₁ hw h1
      cases rest₁ with
      | nil =>
        simp only [pure_eq_ok, Except.ok.injEq, Prod.mk.injEq] at h2
        obtain ⟨rfl, rfl⟩ := h2
        exact ⟨hgl, hw1⟩
      | cons tk2 rest₂ =>
        simp only [List.all_cons, Bool.and_eq_true] at hw1
        cases tk2
        case power =>
          obtain ⟨⟨r, rest₃⟩, h3, h4⟩ := bind_eq_ok h2
          obtain ⟨hgr, hw3⟩ := ihP rest₂ r rest₃ hw1.2 h3
          simp only [pure_eq_ok, Except.ok.injEq, Prod.mk.injEq] at h4
          obtain ⟨rfl, rfl⟩ := h4
          exact ⟨by simp [ASTN.goodT, hgl, hgr], hw3⟩
        all_goals
          simp only [pure_eq_ok, Except.ok.injEq, Prod.mk.injEq] at h2
          obtain ⟨rfl, rfl⟩ := h2
          exact ⟨hgl, by simp [List.all_cons, hw1.1, hw1.2]⟩
    · -- parsePrimaryF
      intro toks t rest hw h
      cases toks with
      | nil => exact Except.noConfusion h
      | cons tk rest₀ =>
        simp only [List.all_cons, Bool.and_eq_true] at hw
        cases tk
        case number s =>
          simp only [parsePrimaryF] at h
          cases hstod : stod s with
          | none =>
            rw [hstod] at h
            exact Except.noConfusion h
          | some v =>
            rw [hstod] at h
            simp only [pure_eq_ok, Except.ok.injEq, Prod.mk.injEq] at h
            obtain ⟨rfl, rfl⟩ := h
            exact ⟨rfl, hw.2⟩
        case var s =>
          simp only [parsePrimaryF, pure_eq_ok, Except.ok.injEq,
            Prod.mk.injEq] at h
          obtain ⟨rfl, rfl⟩ := h
          exact ⟨hw.1, hw.2⟩
        case func name =>
          simp only [parsePrimaryF] at h
          exact ihFn name rest₀ t rest hw.1 hw.2 h
        case lparen =>
          simp only [parsePrimaryF] at h
          obtain ⟨⟨e, rest₁⟩, h1, h2⟩ := bind_eq_ok h
          obtain ⟨hge, hw1⟩ := ihT rest₀ e rest₁ hw.2 h1
          cases rest₁ with
          | nil => exact Except.noConfusion h2
          | cons tk2 rest₂ =>
            simp only [List.all_cons, Bool.and_eq_true] at hw1
            cases tk2
            case rparen =>
              simp only [pure_eq_ok, Except.ok.injEq, Prod.mk.injEq] at h2
              obtain ⟨rfl, rfl⟩ := h2
              exact ⟨hge, hw1.2⟩
            all_goals exact Except.noConfusion h2
        case plus =>
          simp only [parsePrimaryF] at h
          obtain ⟨⟨o, rest'⟩, h1, h2⟩ := bind_eq_ok h
          obtain ⟨hgo, hw'⟩ := ihPr rest₀ o rest' hw.2 h1
          simp only [pure_eq_ok, Except.ok.injEq, Prod.mk.injEq] at h2
          obtain ⟨rfl, rfl⟩ := h2
          exact ⟨by simp [ASTN.goodT, hgo], hw'⟩
        case minus =>
          simp only [parsePrimaryF] at h
          obtain ⟨⟨o, rest'⟩, h1, h2⟩ := bind_eq_ok h
          obtain ⟨hgo, hw'⟩ := ihPr rest₀ o rest' hw.2 h1
          simp only [pure_eq_ok, Except.ok.injEq, Prod.mk.injEq] at h2
          obtain ⟨rfl, rfl⟩ := h2
          exact ⟨by simp [ASTN.goodT, hgo], hw'⟩
        all_goals exact Except.noConfusion h
    · -- parseFunctionF
      intro name toks t rest hfn hw h
      cases toks with
      | nil => exact Except.noConfusion h
      | cons tk rest₀ =>
        simp only [List.all_cons, Bool.and_eq_true] at hw
        cases tk
        case lparen =>
          simp only [parseFunctionF] at h
          cases rest₀ with
          | nil =>
            obtain ⟨⟨a, rest'⟩, h1, h2⟩ := bind_eq_ok h
            obtain ⟨hga, hwa⟩ := ihT [] a rest' rfl h1
            exact ihA name [a] rest' t rest hfn
              (by simp [ASTN.goodArgs, hga]) hwa h2
          | cons tk2 rest₁ =>
            have hw2 := hw.2
            simp only [List.all_cons, Bool.and_eq_true] at hw2
            cases tk2
            case rparen =>
              simp only [pure_eq_ok, Except.ok.injEq, Prod.mk.injEq] at h
              obtain ⟨rfl, rfl⟩ := h
              exact ⟨by simp [ASTN.goodT, hfn, ASTN.goodArgs], hw2.2⟩
            all_goals
              obtain ⟨⟨a, rest'⟩, h1, h2⟩ := bind_eq_ok h
              obtain ⟨hga, hwa⟩ := ihT _ a rest'
                (by simp [List.all_cons, hw2.1, hw2.2]) h1
              exact ihA name [a] rest' t rest hfn
                (by simp [ASTN.goodArgs, hga]) hwa h2
        all_goals exact Except.noConfusion h
    · -- parseArgsF
      intro name acc toks t rest hfn hacc hw h
      cases toks with
      | nil => exact Except.noConfusion h
      | cons tk rest₀ =>
        simp only [List.all_cons, Bool.and_eq_true] at hw
        cases tk
        case comma =>
          simp only [parseArgsF] at h
          obtain ⟨⟨a, rest'⟩, h1, h2⟩ := bind_eq_ok h
          obtain ⟨hga, hwa⟩ := ihT rest₀ a rest' hw.2 h1
          exact ihA name (a :: acc) rest' t rest hfn
            (by simp [ASTN.goodArgs, hga, hacc]) hwa h2
        case rparen =>
          simp only [parseArgsF, pure_eq_ok, Except.ok.injEq,
            Prod.mk.injEq] at h
          obtain ⟨rfl, rfl⟩ := h
          have hrev : ASTN.goodArgs acc.reverse = true := by
            rw [goodArgs_eq_all, List.all_reverse, ← goodArgs_eq_all]
            exact hacc
          exact ⟨by simp [ASTN.goodT, hfn, hrev], hw.2⟩
        all_goals exact Except.noConfusion h

/-! ## The parser accepts its own printed token stream -/

theorem pow_of_prim (u : ASTN)
    (hu : ∀ (f : Nat) (rest : List Tok), 5 * u.ptoks.length ≤ f →
      parsePrimaryF f (u.ptoks ++ rest) = .ok (u, rest)) :
    ∀ (f : Nat) (rest : List Tok), 5 * u.ptoks.length + 1 ≤ f →
      headNotPow rest = true →
      parsePowerF f (u.ptoks ++ rest) = .ok (u, rest) := by
  intro f rest hf hr
  obtain ⟨f₁, rfl⟩ : ∃ g, f = g + 1 := ⟨f - 1, by omega⟩
  simp only [parsePowerF]
  rw [hu f₁ rest (by omega)]
  simp only [ok_bind]
  cases rest with
  | nil => rfl
  | cons tk rs =>
    cases tk
    case power => exact Bool.noConfusion hr
    all_goals rfl

theorem factor_of_prim (u : ASTN)
    (hu : ∀ (f : Nat) (rest : List Tok), 5 * u.ptoks.length ≤ f →
      parsePrimaryF f (u.ptoks ++ rest) = .ok (u, rest)) :
    ∀ (f : Nat) (rest : List Tok), 5 * u.ptoks.length + 2 ≤ f →
      stopsFactor rest = true →
      parseFactorF f (u.ptoks ++ rest) = .ok (u, rest) := by
  intro f rest hf hr
  obtain ⟨f₁, rfl⟩ : ∃ g, f = g + 1 := ⟨f - 1, by omega⟩
  simp only [parseFactorF]
  rw [pow_of_prim u hu f₁ rest (by omega) (stopsFactor_headNotPow hr)]
  simp only [ok_bind]
  obtain ⟨f₂, rfl⟩ : ∃ g, f₁ = g + 1 := ⟨f₁ - 1, by omega⟩
  exact factorLoop_stop f₂ u hr

theorem term_of_prim (u : ASTN)
    (hu : ∀ (f : Nat) (rest : List Tok), 5 * u.ptoks.length ≤ f →
      parsePrimaryF f (u.ptoks ++ rest) = .ok (u, rest)) :
    ∀ (f : Nat) (rest : List Tok), 5 * u.ptoks.length + 3 ≤ f →
      stopsTerm rest = true →
      parseTermF f (u.ptoks ++ rest) = .ok (u, rest) := by
  intro f rest hf hr
  obtain ⟨f₁, rfl⟩ : ∃ g, f = g + 1 := ⟨f - 1, by omega⟩
  simp only [parseTermF]
  rw [factor_of_prim u hu f₁ rest (by omega) (stopsTerm_stopsFactor hr)]
  simp only [ok_bind]
  obtain ⟨f₂, rfl⟩ : ∃ g, f₁ = g + 1 := ⟨f₁ - 1, by omega⟩
  exact termLoop_stop f₂ u hr

theorem stopsTerm_more (as : List ASTN) (rest : List Tok) :
    stopsTerm (ASTN.ptoksMore as ++ .rparen :: rest) = true := by
  cases as <;> rfl

theorem parseFunctionF_cons (f : Nat) (name : String) (a : ASTN)
    (X : List Tok) :
    parseFunctionF (f + 1) name (.lparen :: (a.ptoks ++ X)) =
      (do
        let (x, rest') ← parseTermF f (a.ptoks ++ X)
        parseArgsF f name [x] rest') := by
  cases a with
  | un op e => cases op <;> rfl
  | _ => rfl

mutual

theorem parsePrimary_ptoks (t : ASTN) (hg : t.goodT = true)
    (hn : t.numsOk = true) :
    ∀ (f : Nat) (rest : List Tok), 5 * t.ptoks.length ≤ f →
      parsePrimaryF f (t.ptoks ++ rest) = .ok (t, rest) := by
  cases t with
  | num v =>
    simp only [ASTN.numsOk, numTokOk, Bool.and_eq_true, beq_iff_eq] at hn
    intro f rest hf
    simp only [ASTN.ptoks, List.singleton_append, List.length_singleton] at hf ⊢
    obtain ⟨f₁, rfl⟩ : ∃ g, f = g + 1 := ⟨f - 1, by omega⟩
    simp only [parsePrimaryF]
    rw [hn.2]
    rfl
  | var n =>
    intro f rest hf
    simp only [ASTN.ptoks, List.singleton_append, List.length_singleton] at hf ⊢
    obtain ⟨f₁, rfl⟩ : ∃ g, f = g + 1 := ⟨f - 1, by omega⟩
    rfl
  | bin op l r' =>
    simp only [ASTN.goodT, Bool.and_eq_true] at hg
    simp only [ASTN.numsOk, Bool.and_eq_true] at hn
    have IHl := parsePrimary_ptoks l hg.1 hn.1
    have IHr := parsePrimary_ptoks r' hg.2 hn.2
    have hfl_plus : ∀ (f : Nat) (X : List Tok), 5 * l.ptoks.length + 2 ≤ f →
        parseFactorF f (l.ptoks ++ (Tok.plus :: X)) = .ok (l, Tok.plus :: X) :=
      fun f X hb => factor_of_prim l IHl f _ hb rfl
    have hfl_minus : ∀ (f : Nat) (X : List Tok), 5 * l.ptoks.length + 2 ≤ f →
        parseFactorF f (l.ptoks ++ (Tok.minus :: X)) =
          .ok (l, Tok.minus :: X) :=
      fun f X hb => factor_of_prim l IHl f _ hb rfl
    have hpl_mult : ∀ (f : Nat) (X : List Tok), 5 * l.ptoks.length + 1 ≤ f →
        parsePowerF f (l.ptoks ++ (Tok.multiply :: X)) =
          .ok (l, Tok.multiply :: X) :=
      fun f X hb => pow_of_prim l IHl f _ hb rfl
    have hpl_div : ∀ (f : Nat) (X : List Tok), 5 * l.ptoks.length + 1 ≤ f →
        parsePowerF f (l.ptoks ++ (Tok.divide :: X)) =
          .ok (l, Tok.divide :: X) :=
      fun f X hb => pow_of_prim l IHl f _ hb rfl
    have hfr_rp : ∀ (f : Nat) (X : List Tok), 5 * r'.ptoks.length + 2 ≤ f →
        parseFactorF f (r'.ptoks ++ (Tok.rparen :: X)) =
          .ok (r', Tok.rparen :: X) :=
      fun f X hb => factor_of_prim r' IHr f _ hb rfl
    have hpr_rp : ∀ (f : Nat) (X : List Tok), 5 * r'.ptoks.length + 1 ≤ f →
        parsePowerF f (r'.ptoks ++ (Tok.rparen :: X)) =
          .ok (r', Tok.rparen :: X) :=
      fun f X hb => pow_of_prim r' IHr f _ hb rfl
    intro f rest hf
    simp only [ASTN.ptoks, List.cons_append, List.append_assoc,
      List.singleton_append, List.nil_append, List.length_cons,
      List.length_append, List.length_nil] at hf ⊢
    obtain ⟨f₀, rfl⟩ : ∃ g, f = g + 1 := ⟨f - 1, by omega⟩
    simp only [parsePrimaryF]
    have hterm : parseTermF f₀
        (l.ptoks ++ (op.tok :: (r'.ptoks ++ (Tok.rparen :: rest)))) =
        .ok (.bin op l r', Tok.rparen :: rest) := by
      cases op
      case add =>
        obtain ⟨f₁, rfl⟩ : ∃ g, f₀ = g + 1 := ⟨f₀ - 1, by omega⟩
        simp only [parseTermF, BinOp.tok]
        rw [hfl_plus f₁ _ (by omega)]
        simp only [ok_bind]
        obtain ⟨f₂, rfl⟩ : ∃ g, f₁ = g + 1 := ⟨f₁ - 1, by omega⟩
        simp only [parseTermLoopF]
        rw [hfr_rp f₂ _ (by omega)]
        simp only [ok_bind]
        obtain ⟨f₃, rfl⟩ : ∃ g, f₂ = g + 1 := ⟨f₂ - 1, by omega⟩
        exact termLoop_stop f₃ _ rfl
      case sub =>
        obtain ⟨f₁, rfl⟩ : ∃ g, f₀ = g + 1 := ⟨f₀ - 1, by omega⟩
        simp only [parseTermF, BinOp.tok]
        rw [hfl_minus f₁ _ (by omega)]
        simp only [ok_bind]
        obtain ⟨f₂, rfl⟩ : ∃ g, f₁ = g + 1 := ⟨f₁ - 1, by omega⟩
        simp only [parseTermLoopF]
        rw [hfr_rp f₂ _ (by omega)]
        simp only [ok_bind]
        obtain ⟨f₃, rfl⟩ : ∃ g, f₂ = g + 1 := ⟨f₂ - 1, by omega⟩
        exact termLoop_stop f₃ _ rfl
      case mul =>
        obtain ⟨f₁, rfl⟩ : ∃ g, f₀ = g + 1 := ⟨f₀ - 1, by omega⟩
        simp only [parseTermF, BinOp.tok]
        obtain ⟨f₂, rfl⟩ : ∃ g, f₁ = g + 1 := ⟨f₁ - 1, by omega⟩
        simp only [parseFactorF]
        rw [hpl_mult f₂ _ (by omega)]
        simp only [ok_bind]
        obtain ⟨f₃, rfl⟩ : ∃ g, f₂ = g + 1 := ⟨f₂ - 1, by omega⟩
        simp only [parseFactorLoopF]
        rw [hpr_rp f₃ _ (by omega)]
        simp only [ok_bind]
        obtain ⟨f₄, rfl⟩ : ∃ g, f₃ = g + 1 := ⟨f₃ - 1, by omega⟩
        rw [factorLoop_stop f₄ _
          (show stopsFactor (Tok.rparen :: rest) = true from rfl)]
        simp only [ok_bind]
        exact termLoop_stop (f₄ + 1 + 1) _ rfl
      case div =>
        obtain ⟨f₁, rfl⟩ : ∃ g, f₀ = g + 1 := ⟨f₀ - 1, by omega⟩
        simp only [parseTermF, BinOp.tok]
        obtain ⟨f₂, rfl⟩ : ∃ g, f₁ = g + 1 := ⟨f₁ - 1, by omega⟩
        simp only [parseFactorF]
        rw [hpl_div f₂ _ (by omega)]
        simp only [ok_bind]
        obtain ⟨f₃, rfl⟩ : ∃ g, f₂ = g + 1 := ⟨f₂ - 1, by omega⟩
        simp only [parseFactorLoopF]
        rw [hpr_rp f₃ _ (by omega)]
        simp only [ok_bind]
        obtain ⟨f₄, rfl⟩ : ∃ g, f₃ = g + 1 := ⟨f₃ - 1, by omega⟩
        rw [factorLoop_stop f₄ _
          (show stopsFactor (Tok.rparen :: rest) = true from rfl)]
        simp only [ok_bind]
        exact termLoop_stop (f₄ + 1 + 1) _ rfl
      case pow =>
        obtain ⟨f₁, rfl⟩ : ∃ g, f₀ = g + 1 := ⟨f₀ - 1, by omega⟩
        simp only [parseTermF, BinOp.tok]
        obtain ⟨f₂, rfl⟩ : ∃ g, f₁ = g + 1 := ⟨f₁ - 1, by omega⟩
        simp only [parseFactorF]
        obtain ⟨f₃, rfl⟩ : ∃ g, f₂ = g + 1 := ⟨f₂ - 1, by omega⟩
        simp only [parsePowerF]
        rw [IHl f₃ _ (by omega)]
        simp only [ok_bind]
        rw [hpr_rp f₃ _ (by omega)]
        simp only [ok_bind, pure_eq_ok]
        rw [factorLoop_stop f₃ _
          (show stopsFactor (Tok.rparen :: rest) = true from rfl)]
        simp only [ok_bind]
        exact termLoop_stop (f₃ + 1) _ rfl
    rw [hterm]
    simp only [ok_bind]
    rfl
  | un op e =>
    simp only [ASTN.goodT, Bool.and_eq_true, Bool.or_eq_true, beq_iff_eq] at hg
    simp only [ASTN.numsOk] at hn
    have IHe := parsePrimary_ptoks e hg.2 hn
    rcases hg.1 with rfl | rfl
    · intro f rest hf
      simp only [ASTN.ptoks, List.cons_append, List.length_cons] at hf ⊢
      obtain ⟨f₁, rfl⟩ : ∃ g, f = g + 1 := ⟨f - 1, by omega⟩
      simp only [parsePrimaryF]
      rw [IHe f₁ rest (by omega)]
      rfl
    · intro f rest hf
      simp only [ASTN.ptoks, List.cons_append, List.length_cons] at hf ⊢
      obtain ⟨f₁, rfl⟩ : ∃ g, f = g + 1 := ⟨f - 1, by omega⟩
      simp only [parsePrimaryF]
      rw [IHe f₁ rest (by omega)]
      rfl
  | fn name args =>
    simp only [ASTN.goodT, Bool.and_eq_true] at hg
    simp only [ASTN.numsOk] at hn
    cases args with
    | nil =>
      intro f rest hf
      simp only [ASTN.ptoks, ASTN.ptoksArgs, List.nil_append,
        List.cons_append, List.singleton_append, List.length_cons,
        List.length_nil] at hf ⊢
      obtain ⟨f₁, rfl⟩ : ∃ g, f = g + 1 := ⟨f - 1, by omega⟩
      obtain ⟨f₂, rfl⟩ : ∃ g, f₁ = g + 1 := ⟨f₁ - 1, by omega⟩
      rfl
    | cons a as =>
      have hga := hg.2
      have hns := hn
      simp only [ASTN.goodArgs, Bool.and_eq_true] at hga
      simp only [ASTN.numsArgsOk, Bool.and_eq_true] at hns
      have IHa := parsePrimary_ptoks a hga.1 hns.1
      intro f rest hf
      simp only [ASTN.ptoks, ASTN.ptoksArgs, List.cons_append,
        List.append_assoc, List.singleton_append, List.nil_append,
        List.length_cons, List.length_append, List.length_nil] at hf ⊢
      obtain ⟨f₁, rfl⟩ : ∃ g, f = g + 1 := ⟨f - 1, by omega⟩
      simp only [parsePrimaryF]
      obtain ⟨f₂, rfl⟩ : ∃ g, f₁ = g + 1 := ⟨f₁ - 1, by omega⟩
      rw [parseFunctionF_cons]
      rw [term_of_prim a IHa f₂ (ASTN.ptoksMore as ++ Tok.rparen :: rest)
        (by omega) (stopsTerm_more as rest)]
      simp only [ok_bind]
      have hloop := parseArgs_ptoks as hga.2 hns.2 name [a] f₂ rest (by omega)
      simpa [List.reverse_cons, List.append_assoc,
        List.singleton_append] using hloop

theorem parseArgs_ptoks (as : List ASTN) (hg : ASTN.goodArgs as = true)
    (hn : ASTN.numsArgsOk as = true) :
    ∀ (name : String) (acc : List ASTN) (f : Nat) (rest : List Tok),
      5 * (ASTN.ptoksMore as).length + 1 ≤ f →
      parseArgsF f name acc (ASTN.ptoksMore as ++ .rparen :: rest) =
        .ok (.fn name (acc.reverse ++ as), rest) := by
  cases as with
  | nil =>
    intro name acc f rest hf
    simp only [ASTN.ptoksMore, List.nil_append]
    obtain ⟨f₁, rfl⟩ : ∃ g, f = g + 1 := ⟨f - 1, by omega⟩
    rw [List.append_nil]
    rfl
  | cons a as' =>
    simp only [ASTN.goodArgs, Bool.and_eq_true] at hg
    simp only [ASTN.numsArgsOk, Bool.and_eq_true] at hn
    have IHa := parsePrimary_ptoks a hg.1 hn.1
    intro name acc f rest hf
    simp only [ASTN.ptoksMore, List.cons_append, List.append_assoc,
      List.singleton_append, List.nil_append, List.length_cons,
      List.length_append, List.length_nil] at hf ⊢
    obtain ⟨f₁, rfl⟩ : ∃ g, f = g + 1 := ⟨f - 1, by omega⟩
    simp only [parseArgsF]
    rw [term_of_prim a IHa f₁ (ASTN.ptoksMore as' ++ Tok.rparen :: rest)
      (by omega) (stopsTerm_more as' rest)]
    simp only [ok_bind]
    have hloop := parseArgs_ptoks as' hg.2 hn.2 name (a :: acc) f₁ rest
      (by omega)
    simpa [List.reverse_cons, List.append_assoc,
      List.singleton_append] using hloop

end

theorem parseTerm_ptoks (t : ASTN) (hg : t.goodT = true) (hn : t.numsOk = true)
    (f : Nat) (rest : List Tok) (hf : 5 * t.ptoks.length + 3 ≤ f)
    (hr : stopsTerm rest = true) :
    parseTermF f (t.ptoks ++ rest) = .ok (t, rest) :=
  term_of_prim t (parsePrimary_ptoks t hg hn) f rest hf hr

theorem lex_toText (t : ASTN) (hg : t.goodT = true) (hn : t.numsOk = true) :
    lex (ASTN.toText t) = t.ptoks := by
  have h := lexer_toText t hg hn [] rfl
  have h2 : lexer ([] : List Char) = [] := rfl
  rw [List.append_nil, h2, List.append_nil] at h
  exact h

theorem parse_toText (t : ASTN) (hg : t.goodT = true) (hn : t.numsOk = true) :
    parse (ASTN.toText t) = .ok t := by
  have hlex : lex (ASTN.toText t) = t.ptoks := lex_toText t hg hn
  have hterm : parseTermF (5 * t.ptoks.length + 5) (t.ptoks ++ []) =
      .ok (t, []) :=
    parseTerm_ptoks t hg hn _ [] (by omega) rfl
  rw [List.append_nil] at hterm
  simp only [parse]
  rw [hlex, hterm]

theorem goodT_of_parse (s : String) (t : ASTN) (hp : parse s = .ok t) :
    t.goodT = true := by
  simp only [parse] at hp
  cases hres : parseTermF (5 * (lex s).length + 5) (lex s) with
  | error msg =>
    rw [hres] at hp
    exact Except.noConfusion hp
  | ok p =>
    obtain ⟨t', rest⟩ := p
    rw [hres] at hp
    cases rest with
    | nil =>
      simp only [Except.ok.injEq] at hp
      subst hp
      exact ((parserWf _).1 (lex s) t' [] (lexAll_wf _ _) hres).1
    | cons tk rs =>
      exact Except.noConfusion hp

/-- C3 (amended): for every string the parser accepts, printing the resulting
tree with `toString` and re-parsing returns a structurally identical tree
PROVIDED every numeric leaf's value survives the 6-significant-digit
`%g`-style print/`std::stod` round trip (`numTokOk`); without that proviso
the law fails, e.g. for `"1234567"`. -/
theorem parse_print_roundtrip (s : String) (t : ASTN)
    (hp : parse s = .ok t) (hn : t.numsOk = true) :
    parse (ASTN.toText t) = .ok t :=
  parse_toText t (goodT_of_parse s t hp) hn

/-- C3 witness: `"2x"` parses to `2 * x`, whose printed form `(2 * x)`
parses back to the same tree. -/
theorem parse_print_roundtrip_witness :
    parse "2x" = .ok (.bin .mul (.num 2) (.var "x"))
    ∧ (ASTN.bin .mul (.num 2) (.var "x")).numsOk = true
    ∧ parse (ASTN.toText (.bin .mul (.num 2) (.var "x"))) =
        .ok (.bin .mul (.num 2) (.var "x")) :=
  ⟨rfl, rfl, parse_print_roundtrip "2x" (.bin .mul (.num 2) (.var "x")) rfl rfl⟩

/-- C2 witness: `x + 0` simplifies to `x`, whose variable set is contained
in the input's. -/
theorem simplify_vars_subset_witness :
    SymExpr.simplify ratPrims (.bin .add (.var "x") (.num 0)) = .ok (.var "x")
    ∧ (SymExpr.var "x").varsIn ⊆ (SymExpr.bin .add (.var "x") (.num 0)).varsIn :=
  ⟨rfl, simplify_vars_subset ratPrims (.bin .add (.var "x") (.num 0)) (.var "x") rfl⟩

end Cas
